import Mathlib

/-!
Verification of the block-diff backup/restore engine (a block-level,
content-addressed, deduplicating backup tool written in Go) against its
natural-language specification.

The development shallowly embeds the core of the Go sources:

* `backup.go` — `NewBackup`, `Backup.Run`, `Backup.writeBlocks`,
  `Backup.insertBlockPositionsTransaction`, `Backup.identifyDuplicateBlocks`,
  `Backup.hashBufferedData`, `resolveVolume`, `determineBackupType`,
  `calculateTotalBlocks`;
* `restore.go` — `Restore.Run`, `Restore.restoreFromBackup`, `readBlock`;
* the SQLite-backed store (`store.go`) — `InsertVolume`, `FindVolume`,
  `insertBackupRecord`, `findLastFullBackupRecord`, `findBackup`,
  `updateBackupSize` and the four tables with their UNIQUE constraints.

Modelling conventions:

* Bytes and digests are natural numbers.  The hash (`xxhash.Sum64` in the Go
  code, an external library) is an explicit function parameter
  `h : List Nat → Nat`; claims that need collision-freedom carry it as a
  hypothesis.
* The SQLite tables are association lists of row structures plus the
  AUTOINCREMENT counters and the connection-level last-insert-rowid
  (`sqlite3_last_insert_rowid`, which `database/sql` exposes as
  `Result.LastInsertId`; it is *not* reset by an `INSERT … ON CONFLICT DO
  NOTHING` that inserts nothing).
* File I/O is modelled exactly: a read of `n` bytes at offset `o` from a file
  `f` yields `(f.drop o).take n`; artifact files are keyed by the backup
  record id; restore targets are fresh files whose unwritten bytes are zero.
* Go map iteration order is unspecified (and deliberately randomised).  The
  two map iterations of `writeBlocks` whose order is observable — building
  `reverseMap` from `hashMap`, and walking `insertablePositions` to assemble
  the INSERT statement — therefore take the iteration order as a function
  parameter; theorems about order-sensitive behaviour quantify over all
  permutations, and counterexamples exhibit a concrete legitimate order.
* Fallible operations return `Except String`.  An SQL statement of the shape
  `… IN ()` (zero placeholders) is a syntax error in SQLite and is modelled
  as an error.
-/

namespace BlockDiff

/-- A volume row (`volumes` table: `id`, `name` UNIQUE, `devicePath`). -/
structure VolumeRow where
  id : Nat
  name : String
  devicePath : String
deriving DecidableEq

/-- A backup row (`backups` table).  The string fields `file_name`,
`full_path` and `output_format` are elided: artifact files are keyed by the
backup id in the model.  `sizeInBytes` is the `size_in_bytes` column, which
`insertBackupRecord` fills with the size of the *source*. -/
structure BackupRow where
  id : Nat
  volumeId : Nat
  backupType : String
  totalBlocks : Nat
  blockSize : Nat
  sizeInBytes : Nat
deriving DecidableEq

/-- A block row (`blocks` table: `id`, `hash` UNIQUE). -/
structure BlockRow where
  id : Nat
  hash : Nat
deriving DecidableEq

/-- A block-position row (`block_positions` table:
`id`, `backup_id`, `block_id`, `position`). -/
structure PositionRow where
  id : Nat
  backupId : Nat
  blockId : Nat
  position : Nat
deriving DecidableEq

/-- The SQLite database: the four tables, the AUTOINCREMENT counters, and the
connection-level `sqlite3_last_insert_rowid` value (0 on a fresh
connection). -/
structure Store where
  volumes : List VolumeRow
  backups : List BackupRow
  blocks : List BlockRow
  positions : List PositionRow
  nextVolumeId : Nat
  nextBackupId : Nat
  nextBlockId : Nat
  nextPositionId : Nat
  lastInsertRowId : Nat
deriving DecidableEq

/-- A fresh database on a fresh connection. -/
def emptyStore : Store :=
  { volumes := [], backups := [], blocks := [], positions := []
    nextVolumeId := 1, nextBackupId := 1, nextBlockId := 1, nextPositionId := 1
    lastInsertRowId := 0 }

/-- Backup-type constant from `backup.go`. -/
def backupTypeFull : String := "full"

/-- Backup-type constant from `backup.go`. -/
def backupTypeDifferential : String := "differential"

/-- `SELECT id, devicePath FROM volumes WHERE name = ?` (`Store.FindVolume`). -/
def Store.FindVolume (s : Store) (name : String) : Option VolumeRow :=
  s.volumes.find? (fun v => decide (v.name = name))

/-- `Store.InsertVolume`: `INSERT INTO volumes (name, devicePath) VALUES (?,?)
ON CONFLICT DO NOTHING`, then `LastInsertId`; when that id is 0 the code falls
back to `FindVolume`.  On conflict nothing is inserted, so `LastInsertId`
still reports the connection's previous successful insert (0 only on a
connection that has never inserted a row). -/
def Store.InsertVolume (s : Store) (name devicePath : String) :
    Except String (Store × VolumeRow) :=
  match s.FindVolume name with
  | some _ =>
      if s.lastInsertRowId = 0 then
        match s.FindVolume name with
        | some v => Except.ok (s, v)
        | none => Except.error "sql: no rows in result set"
      else
        Except.ok (s, { id := s.lastInsertRowId, name := name, devicePath := devicePath })
  | none =>
      let v : VolumeRow := { id := s.nextVolumeId, name := name, devicePath := devicePath }
      Except.ok
        ({ s with
            volumes := s.volumes ++ [v]
            nextVolumeId := s.nextVolumeId + 1
            lastInsertRowId := s.nextVolumeId }, v)

/-- `Store.insertBackupRecord`: inserts a backup row; `size_in_bytes` is set
to the probed source size. -/
def Store.insertBackupRecord (s : Store) (volumeId : Nat) (backupType : String)
    (totalBlocks blockSize sizeInBytes : Nat) : Store × BackupRow :=
  let r : BackupRow :=
    { id := s.nextBackupId, volumeId := volumeId, backupType := backupType
      totalBlocks := totalBlocks, blockSize := blockSize, sizeInBytes := sizeInBytes }
  ({ s with
      backups := s.backups ++ [r]
      nextBackupId := s.nextBackupId + 1
      lastInsertRowId := s.nextBackupId }, r)

/-- `Store.findLastFullBackupRecord`: `SELECT … FROM backups WHERE
volume_id = ? AND backup_type = 'full' ORDER BY id DESC LIMIT 1`.  Rows are
kept in id order, so the last matching row is the answer. -/
def Store.findLastFullBackupRecord (s : Store) (volumeId : Nat) : Option BackupRow :=
  (s.backups.filter
    (fun b => decide (b.volumeId = volumeId ∧ b.backupType = backupTypeFull))).getLast?

/-- `Store.findBackup`: `SELECT … FROM backups WHERE id = ?`. -/
def Store.findBackup (s : Store) (id : Nat) : Option BackupRow :=
  s.backups.find? (fun b => decide (b.id = id))

/-- `SELECT id FROM blocks WHERE hash = ?` — the `blocks` table is UNIQUE on
`hash`, so `find?` returns the row. -/
def Store.findBlockIdByHash (s : Store) (d : Nat) : Option Nat :=
  (s.blocks.find? (fun b => decide (b.hash = d))).map BlockRow.id

/-- Whether a digest is already present in the `blocks` table. -/
def Store.hasDigest (s : Store) (d : Nat) : Bool :=
  (s.blocks.find? (fun b => decide (b.hash = d))).isSome

/-- `Store.updateBackupSize`: `UPDATE backups SET size_in_bytes = ? WHERE
id = ?`.  (Defined by the store; the backup engine never calls it.) -/
def Store.updateBackupSize (s : Store) (backupId sizeInBytes : Nat) : Store :=
  { s with
      backups := s.backups.map
        (fun b => if b.id = backupId then { b with sizeInBytes := sizeInBytes } else b) }

/-- Association-list lookup (the Go `m[k]` read, as an `Option`). -/
def assocLookup (m : List (Nat × Nat)) (k : Nat) : Option Nat :=
  (m.find? (fun p => decide (p.1 = k))).map Prod.snd

/-- Association-list update (the Go `m[k] = v` write): replaces the binding
if the key is present, otherwise appends it. -/
def assocSet (m : List (Nat × Nat)) (k v : Nat) : List (Nat × Nat) :=
  if m.any (fun p => decide (p.1 = k)) then
    m.map (fun p => if p.1 = k then (k, v) else p)
  else m ++ [(k, v)]

/-- `for k, v := range hashMap { reverseMap[v] = k }` — builds the
digest-to-position map, later bindings overwriting earlier ones.  The caller
supplies `hashMap` already arranged in the (unspecified) iteration order. -/
def buildReverseMap (entries : List (Nat × Nat)) : List (Nat × Nat) :=
  entries.foldl (fun m kv => assocSet m kv.2 kv.1) []

/-- `sort.Ints` — modelled as insertion sort (any comparison sort yields the
same list on the duplicate-free inputs that occur here). -/
def sortInts (l : List Nat) : List Nat :=
  List.insertionSort (fun a b => a ≤ b) l

/-- The byte range `buf[bs*i : bs*i+bs]` that `hashBufferedData` hashes for
block `i` of a window (as a total function; the in-bounds theorem shows the
Go slice never faults). -/
def blockSlice (bs : Nat) (buf : List Nat) (i : Nat) : List Nat :=
  (buf.drop (bs * i)).take bs

/-- `Backup.hashBufferedData`: hashes the `bufEntries` blocks of the window
buffer; block `i` lands at position `iteration*bufCapacity + i`.  The Go
code fans this out over goroutines populating a map under a mutex; the
resulting map is the graph of this list. -/
def hashBufferedData (h : List Nat → Nat) (bs iteration bufEntries bufCapacity : Nat)
    (buf : List Nat) : List (Nat × Nat) :=
  (List.range bufEntries).map
    (fun i => (iteration * bufCapacity + i, h (blockSlice bs buf i)))

/-- `Backup.identifyDuplicateBlocks`: `SELECT DISTINCT hash FROM blocks WHERE
hash IN (…)` over the digests of `reverseMap`.  With zero digests the
statement reads `IN ()`, an SQLite syntax error. -/
def identifyDuplicateBlocks (s : Store) (digests : List Nat) : Except String (List Nat) :=
  if digests.isEmpty then Except.error "SQL logic error: unrecognized token near IN ()"
  else Except.ok (digests.filter (fun d => s.hasDigest d))

/-- `Backup.writeBlocks` (one window).  `hashOrdK` and `insOrdK` are the
iteration orders of the two observable Go map walks (any permutation of the
entries; see the module docstring).  Returns the updated store, the bytes
appended to the artifact by this window, and the window's `hashMap`.

Steps, mirroring the Go code: hash the window; build `reverseMap`
(digest → position, last binding wins); query which digests already exist
(`identifyDuplicateBlocks`); keep the rest (`insertablePositions`); if none,
return early; otherwise insert the new digests into `blocks` (rowids assigned
in VALUES order, i.e. in map-iteration order), sort the chosen positions
ascending, and emit the corresponding `blockSize`-byte slices of the window
buffer in that order. -/
def writeBlocks (h : List Nat → Nat)
    (hashOrdK insOrdK : List (Nat × Nat) → List (Nat × Nat))
    (bs iteration bufEntries bufCapacity : Nat) (blockBuf : List Nat) (st : Store) :
    Except String (Store × List Nat × List (Nat × Nat)) :=
  let hashMap := hashBufferedData h bs iteration bufEntries bufCapacity blockBuf
  let reverseMap := buildReverseMap (hashOrdK hashMap)
  match identifyDuplicateBlocks st (reverseMap.map Prod.fst) with
  | Except.error e => Except.error e
  | Except.ok duplicateHashes =>
      let insertable := reverseMap.filter (fun p => !duplicateHashes.contains p.1)
      if insertable.isEmpty then Except.ok (st, [], hashMap)
      else
        let ordered := insOrdK insertable
        let newRows := ordered.enum.map (fun jp => BlockRow.mk (st.nextBlockId + jp.1) jp.2.1)
        let st2 : Store :=
          { st with
              blocks := st.blocks ++ newRows
              nextBlockId := st.nextBlockId + ordered.length
              lastInsertRowId := st.nextBlockId + ordered.length - 1 }
        let sortedPos := sortInts (ordered.map Prod.snd)
        let outBytes :=
          (sortedPos.map (fun pos => blockSlice bs blockBuf (pos - iteration * bufCapacity))).flatten
        Except.ok (st2, outBytes, hashMap)

/-- `Backup.insertBlockPositionsTransaction` (one window).  Skips everything
when the window's `hashMap` is empty; for a differential backup loads the
reference full backup's `(position, hash)` pairs over `[posStart, posEnd)`
into `dupMap` and skips every position whose digest matches; bulk-inserts the
remaining `(backupId, blockId, position)` rows. -/
def insertBlockPositionsTransaction (recId : Nat) (btype : String) (lastFullId : Nat)
    (iteration bufEntries bufCapacity : Nat) (hashMap : List (Nat × Nat)) (st : Store) :
    Except String Store :=
  if hashMap.isEmpty then Except.ok st
  else
    let posStart := iteration * bufCapacity
    let posEnd := posStart + bufCapacity
    let dupMap : List (Nat × Nat) :=
      if btype = backupTypeDifferential then
        (st.positions.filter
          (fun p => decide (p.backupId = lastFullId ∧ posStart ≤ p.position ∧ p.position < posEnd))).filterMap
          (fun p => (st.blocks.find? (fun b => decide (b.id = p.blockId))).map
            (fun b => (p.position, b.hash)))
      else []
    let rows : List (Nat × Nat × Nat) :=
      (List.range bufEntries).filterMap (fun i =>
        let pos := posStart + i
        let hv := (assocLookup hashMap pos).getD 0
        if btype = backupTypeDifferential ∧ assocLookup dupMap pos = some hv then none
        else some (recId, (st.findBlockIdByHash hv).getD 0, pos))
    if rows.isEmpty then Except.ok st
    else
      let prows := rows.enum.map
        (fun jr => PositionRow.mk (st.nextPositionId + jr.1) jr.2.1 jr.2.2.1 jr.2.2.2)
      Except.ok
        { st with
            positions := st.positions ++ prows
            nextPositionId := st.nextPositionId + prows.length
            lastInsertRowId := st.nextPositionId + prows.length - 1 }

/-- The per-run context of `Backup.Run`: the hash, the per-window map
iteration orders, `blockSize`, `blockBufferSize` (`bufCapacity`), the backup
record id and type, the reference full backup id (0 when none), and the
source bytes. -/
structure BkCtx where
  hash : List Nat → Nat
  hashOrd : Nat → List (Nat × Nat) → List (Nat × Nat)
  insOrd : Nat → List (Nat × Nat) → List (Nat × Nat)
  bs : Nat
  cap : Nat
  recId : Nat
  btype : String
  lastFullId : Nat
  source : List Nat

/-- One iteration of the streaming loop of `Backup.Run`: read the window
buffer (truncated at end of source, never padded), compute
`bufEntries = len(blockBuf) / blockSize` (integer division), run
`writeBlocks` then `insertBlockPositionsTransaction`. -/
def processWindow (c : BkCtx) (k : Nat) (st : Store) : Except String (Store × List Nat) :=
  let offset := k * c.cap * c.bs
  let blockBuf := (c.source.drop offset).take (c.cap * c.bs)
  let bufEntries := blockBuf.length / c.bs
  match writeBlocks c.hash (c.hashOrd k) (c.insOrd k) c.bs k bufEntries c.cap blockBuf st with
  | Except.error e => Except.error e
  | Except.ok (st2, outBytes, hashMap) =>
      match insertBlockPositionsTransaction c.recId c.btype c.lastFullId k bufEntries c.cap hashMap st2 with
      | Except.error e => Except.error e
      | Except.ok st3 => Except.ok (st3, outBytes)

/-- The streaming loop of `Backup.Run`: `for iteration*bufCapacity <
totalBlocks`, with the early `break` when the remaining range is empty.  The
`fuel` argument only forces termination; `Run` passes `totalBlocks + 1`,
which is never exhausted. -/
def runWindows (c : BkCtx) (totalBlocks : Nat) :
    Nat → Nat → Store → List Nat → Except String (Store × List Nat)
  | 0, _, _, _ => Except.error "fuel exhausted"
  | fuel + 1, k, st, art =>
      if k * c.cap < totalBlocks then
        if c.source.length ≤ k * c.cap * c.bs then Except.ok (st, art)
        else
          match processWindow c k st with
          | Except.error e => Except.error e
          | Except.ok (st2, outBytes) => runWindows c totalBlocks fuel (k + 1) st2 (art ++ outBytes)
      else Except.ok (st, art)

/-- `calculateTotalBlocks`: `⌈sizeInBytes / blockSize⌉`.  The Go code
computes this through `float64` division and `math.Ceil`; the embedding uses
the exact natural-number ceiling, which agrees with the float computation for
the sizes considered here (it would not for sizes beyond 2^53 — see the
discussion of the numerical claim). -/
def calculateTotalBlocks (blockSize sizeInBytes : Nat) : Nat :=
  (sizeInBytes + blockSize - 1) / blockSize

/-- Splitting a character list on a separator (`strings.Split` with a
one-character separator). -/
def splitOnChar (sep : Char) : List Char → List Char → List (List Char)
  | [], cur => [cur.reverse]
  | c :: cs, cur =>
      if c = sep then cur.reverse :: splitOnChar sep cs []
      else splitOnChar sep cs (c :: cur)

/-- The last component of a `/`-separated path
(`pathSlice[len(pathSlice)-1]` after `strings.Split(devicePath, "/")`). -/
def pathBasename (s : String) : String :=
  String.mk ((splitOnChar '/' s.data []).getLastD [])

/-- `resolveVolume`: takes the basename of the device path, looks the volume
up by name, inserting it on `sql.ErrNoRows`. -/
def resolveVolume (st : Store) (devicePath : String) : Except String (Store × VolumeRow) :=
  let volName := pathBasename devicePath
  match st.FindVolume volName with
  | some v => Except.ok (st, v)
  | none => st.InsertVolume volName devicePath

/-- `determineBackupType`: full iff no previous full backup exists for the
volume (the Go code compares against the zero `BackupRecord`, which
`findLastFullBackupRecord` returns on `sql.ErrNoRows`). -/
def determineBackupType (lastFull : Option BackupRow) : String :=
  match lastFull with
  | none => backupTypeFull
  | some _ => backupTypeDifferential

/-- The map iteration orders of one execution (one pair of orders per window
index).  A legitimate schedule permutes each list; `idSched` is the
position-ascending execution. -/
structure Sched where
  hashOrd : Nat → List (Nat × Nat) → List (Nat × Nat)
  insOrd : Nat → List (Nat × Nat) → List (Nat × Nat)

/-- The identity schedule (maps iterated in insertion order). -/
def idSched : Sched := ⟨fun _ l => l, fun _ l => l⟩

/-- The world outside the database: the artifact file of each backup record,
keyed by record id. -/
structure Sys where
  store : Store
  files : List (Nat × List Nat)
deriving DecidableEq

/-- A fresh system: empty database, no artifact files. -/
def emptySys : Sys := { store := emptyStore, files := [] }

/-- Artifact file lookup by backup record id. -/
def Sys.artifact (sys : Sys) (recId : Nat) : Option (List Nat) :=
  ((sys.files.find? (fun p => decide (p.1 = recId)))).map Prod.snd

/-- `NewBackup` followed by `Backup.Run`: probe the source size, compute
`totalBlocks`, resolve the volume, find the last full backup, determine the
backup type, insert the backup record (with the *source* size in
`size_in_bytes`), stream the windows, then measure the artifact and assign it
to the in-memory record only — `Run` never calls `updateBackupSize`, so the
stored row keeps the source size.  Returns the system and the in-memory
`Backup.Record`. -/
def backupRun (h : List Nat → Nat) (sch : Sched) (bs cap : Nat) (devicePath : String)
    (source : List Nat) (sys : Sys) : Except String (Sys × BackupRow) :=
  let sizeInBytes := source.length
  let totalBlocks := calculateTotalBlocks bs sizeInBytes
  match resolveVolume sys.store devicePath with
  | Except.error e => Except.error e
  | Except.ok (st1, vol) =>
      let lastFull := st1.findLastFullBackupRecord vol.id
      let btype := determineBackupType lastFull
      let res := st1.insertBackupRecord vol.id btype totalBlocks bs sizeInBytes
      let st2 := res.1
      let rec1 := res.2
      let c : BkCtx :=
        { hash := h, hashOrd := sch.hashOrd, insOrd := sch.insOrd, bs := bs, cap := cap
          recId := rec1.id, btype := btype
          lastFullId := (lastFull.map BackupRow.id).getD 0, source := source }
      match runWindows c totalBlocks (totalBlocks + 1) 0 st2 [] with
      | Except.error e => Except.error e
      | Except.ok (st3, artifact) =>
          Except.ok
            ({ store := st3, files := sys.files ++ [(rec1.id, artifact)] },
             { rec1 with sizeInBytes := artifact.length })

/-- `readBlock` (restore side): allocates a `blockSize` buffer (trimmed when
the range computed from `totalBlocks` overflows), seeks, performs one read,
and returns the whole buffer — bytes past the read are the zeroes of `make`.
Reading at or past end of file yields `io.EOF`. -/
def readBlock (artifact : List Nat) (totalBlocks blockSize blockNum : Nat) :
    Except String (List Nat) :=
  let endRange := blockSize * blockNum + blockSize
  let endOfFile := blockSize * totalBlocks
  let bufLen := if endOfFile < endRange then endOfFile - blockSize * blockNum else blockSize
  if endOfFile < endRange ∧ endOfFile ≤ blockSize * blockNum then Except.error "EOF"
  else
    let offset := blockSize * blockNum
    if artifact.length ≤ offset then Except.error "EOF"
    else
      let got := (artifact.drop offset).take bufLen
      Except.ok (got ++ List.replicate (bufLen - got.length) 0)

/-- Positional write (`WriteAt`): extends the file with zeroes up to the
offset if needed, then overlays the data. -/
def writeAt (f : List Nat) (off : Nat) (data : List Nat) : List Nat :=
  let f2 := f ++ List.replicate (off - f.length) 0
  f2.take off ++ data ++ f2.drop (off + data.length)

/-- `Restore.restoreFromBackup`: count the distinct block ids of the backup's
positions (`U`); for each of the first `U` `blockSize`-windows of the
artifact, hash it and write it at every position the store associates with
that digest under this backup id. -/
def restoreFromBackup (h : List Nat → Nat) (st : Store) (files : List (Nat × List Nat))
    (backup : BackupRow) (target : List Nat) : Except String (List Nat) :=
  match (files.find? (fun p => decide (p.1 = backup.id))).map Prod.snd with
  | none => Except.error "open: no such file"
  | some artifact =>
      let totalUniqueBlocks :=
        (((st.positions.filter (fun p => decide (p.backupId = backup.id))).map
          PositionRow.blockId).foldl
            (fun acc x => if acc.contains x then acc else acc ++ [x]) []).length
      (List.range totalUniqueBlocks).foldlM
        (fun tgt blockNum =>
          match readBlock artifact totalUniqueBlocks backup.blockSize blockNum with
          | Except.error e => Except.error e
          | Except.ok blockData =>
              let digest := h blockData
              let poss := (st.positions.filter (fun p =>
                decide (p.backupId = backup.id ∧
                  (st.blocks.find? (fun b => decide (b.id = p.blockId))).map BlockRow.hash
                    = some digest))).map PositionRow.position
              Except.ok (poss.foldl (fun t pos => writeAt t (pos * backup.blockSize) blockData) tgt))
        target

/-- `NewRestore` followed by `Restore.Run`: load the backup record; for a
differential also load the (current) last full backup of the volume and
replay it first; then replay the selected backup into the same target.  The
target is a freshly created file (all-zero where unwritten). -/
def restoreRun (h : List Nat → Nat) (sys : Sys) (sourceBackupId : Nat) :
    Except String (List Nat) :=
  match sys.store.findBackup sourceBackupId with
  | none => Except.error "error resolving backup record"
  | some backup =>
      if backup.backupType = backupTypeDifferential then
        match sys.store.findLastFullBackupRecord backup.volumeId with
        | none => Except.error "error resolving last full backup record"
        | some lfb =>
            match restoreFromBackup h sys.store sys.files lfb [] with
            | Except.error e => Except.error e
            | Except.ok t1 => restoreFromBackup h sys.store sys.files backup t1
      else if backup.backupType = backupTypeFull then
        restoreFromBackup h sys.store sys.files backup []
      else Except.error "backup type is not supported"

/-- The positions recorded for a backup, in rowid (insertion) order. -/
def positionsOfBackup (st : Store) (recId : Nat) : List Nat :=
  (st.positions.filter (fun p => decide (p.backupId = recId))).map PositionRow.position

/-- The digest recorded for a backup at a position, through the
`block_positions`/`blocks` join (none when no row exists at that position). -/
def recordedDigestAt (st : Store) (backupId pos : Nat) : Option Nat :=
  (st.positions.find? (fun p => decide (p.backupId = backupId ∧ p.position = pos))).bind
    (fun p => (st.blocks.find? (fun b => decide (b.id = p.blockId))).map BlockRow.hash)

/-- Modelled from the spec: the set of positions a differential backup is
claimed to record — every `p ∈ [0, totalBlocks)` at which the digest of the
source block differs from the digest recorded for the reference full backup
at `p`. -/
def claimedDiffPositions (h : List Nat → Nat) (bs : Nat) (source : List Nat)
    (st : Store) (fullId totalBlocks : Nat) : List Nat :=
  (List.range totalBlocks).filter
    (fun p => decide (¬ recordedDigestAt st fullId p = some (h (blockSlice bs source p))))

/-- Modelled from the spec: the payload of a digest — the (first) source
block whose hash is that digest. -/
def payloadOfDigest (h : List Nat → Nat) (bs : Nat) (source : List Nat) (d : Nat) : List Nat :=
  ((List.range (calculateTotalBlocks bs source.length)).filterMap
    (fun i => if h (blockSlice bs source i) = d then some (blockSlice bs source i) else none)).headD []

/-- Modelled from the spec: the artifact contents the artifact-layout claim
describes — the payloads of the blocks that are new to the store during the
run (rows of the final `blocks` table whose digest the initial store lacked),
concatenated in ascending `blockId` order. -/
def blockIdOrderedNewPayloads (h : List Nat → Nat) (bs : Nat) (source : List Nat)
    (stBefore stAfter : Store) : List Nat :=
  ((sortInts ((stAfter.blocks.filter (fun b => !stBefore.hasDigest b.hash)).map BlockRow.id)).map
    (fun i => payloadOfDigest h bs source
      (((stAfter.blocks.find? (fun b => decide (b.id = i))).map BlockRow.hash).getD 0))).flatten

/-- Splitting a byte list into `bs`-sized chunks (fuel-driven; callers pass
the list length). -/
def chunksOf (bs : Nat) : Nat → List Nat → List (List Nat)
  | 0, _ => []
  | _, [] => []
  | fuel + 1, l => l.take bs :: chunksOf bs fuel (l.drop bs)

/-- The `bs`-sized chunks of a byte list. -/
def chunkList (bs : Nat) (l : List Nat) : List (List Nat) :=
  chunksOf bs l.length l

/-- A concrete hash used by the closed executions below: injective on byte
lists whose entries are below 999 (it reads the list as base-1000 digits
shifted by one), so the no-collision hypotheses of the claims hold on the
blocks involved. -/
def testHash : List Nat → Nat :=
  fun l => l.foldl (fun a b => a * 1000 + b + 1) 0

/-- An execution schedule whose `insertablePositions` walk visits the entries
in reverse insertion order — a legitimate Go map iteration order. -/
def revInsSched : Sched := ⟨fun _ l => l, fun _ l => l.reverse⟩

/-- Which steps of a transaction fail, for exercising the error paths of the
write phases. -/
structure TxFaults where
  beginFails : Bool
  prepareFails : Bool
  execFails : Bool
  commitFails : Bool
deriving DecidableEq

/-- Fate of the transaction when the enclosing function returns. -/
inductive TxOutcome where
  | noTx
  | committed
  | rolledBack
  | leftOpen
  | commitFailed
deriving DecidableEq

/-- The transaction control flow of `Backup.writeBlocks` (backup.go lines
386–407): `Begin`; `Prepare` (on error `handleRollback` then return);
`Exec` (on error return — with NO rollback); `Commit` (on error
`handleRollback` then return).  Returns the transaction's fate and whether an
error was returned. -/
def writeBlocksTxFlow (f : TxFaults) : TxOutcome × Bool :=
  if f.beginFails then (TxOutcome.noTx, true)
  else if f.prepareFails then (TxOutcome.rolledBack, true)
  else if f.execFails then (TxOutcome.leftOpen, true)
  else if f.commitFails then (TxOutcome.rolledBack, true)
  else (TxOutcome.committed, false)

/-- The transaction control flow of `Backup.insertBlockPositionsTransaction`
(backup.go lines 309–333): `Begin`; `Prepare` (on error `handleRollback`);
`Exec` (on error `handleRollback`); then `return tx.Commit()` (a commit
failure is returned with no rollback issued). -/
def insertBlockPositionsTxFlow (f : TxFaults) : TxOutcome × Bool :=
  if f.beginFails then (TxOutcome.noTx, true)
  else if f.prepareFails then (TxOutcome.rolledBack, true)
  else if f.execFails then (TxOutcome.rolledBack, true)
  else if f.commitFails then (TxOutcome.commitFailed, true)
  else (TxOutcome.committed, false)

/-- How a store evolves inside one backup run: position rows are only added
for the run's own backup id, and block rows are only appended. -/
def RunExtends (st0 st : Store) (recId : Nat) : Prop :=
  (∃ extra, st.positions = st0.positions ++ extra ∧ ∀ r ∈ extra, r.backupId = recId) ∧
  (∃ newb, st.blocks = st0.blocks ++ newb)

/-- C1.  The round-trip guarantee fails on the code: for the 5-byte source
`[1,2,3,4,5]` with `blockSize = 2` and `blockBufferSize = 3`, the full backup
and the subsequent restore both succeed and all distinct blocks involved have
distinct digests (no collision), yet the restored file is `[1,2,3,4]`, which
differs from the source on its first `sizeInBytes = 5` bytes: the streaming
loop computes `bufEntries = len(blockBuf) / blockSize` by integer division,
so the final short block is never hashed, recorded or written. -/
theorem C1_roundtrip_fails_on_short_tail :
    ((backupRun testHash idSched 2 3 "pg" [1, 2, 3, 4, 5] emptySys).toOption.map
      (fun p => ((restoreRun testHash p.1 p.2.id).toOption, p.2.backupType)))
      = some (some [1, 2, 3, 4], backupTypeFull)
    ∧ ¬ (List.take 5 [1, 2, 3, 4] = List.take 5 ([1, 2, 3, 4, 5] : List Nat))
    ∧ testHash [1, 2] ≠ testHash [3, 4]
    ∧ testHash [1, 2] ≠ testHash [5]
    ∧ testHash [3, 4] ≠ testHash [5] := by
  refine ⟨by decide, by decide, by decide, by decide, by decide⟩

/-- C2.  Full coverage fails on the code: for the same 5-byte source the full
backup succeeds with `totalBlocks = ⌈5/2⌉ = 3`, but only the positions
`[0, 1]` receive `BlockPosition` rows — the window hashes
`E = ⌊bufLen / blockSize⌋` blocks (integer division), not
`⌈bufLen / blockSize⌉`, so the final short block gets no position row. -/
theorem C2_full_coverage_fails_on_short_tail :
    ((backupRun testHash idSched 2 3 "pg" [1, 2, 3, 4, 5] emptySys).toOption.map
      (fun p => (p.2.backupType, p.2.totalBlocks, positionsOfBackup p.1.store p.2.id)))
      = some (backupTypeFull, 3, [0, 1])
    ∧ ¬ (([0, 1] : List Nat).length = 3) := by
  refine ⟨by decide, by decide⟩

/-- C3.  Differential minimality fails on the code: back up `[1,2,3,4,9]` in
full, then `[1,2,3,4,8]` (same volume) as a differential.  The sources differ
exactly in the final short block (position 2), so the claimed position set is
`{2}`, but the differential records no positions at all — position 2 is
dropped by the same floor division of `bufEntries`. -/
theorem C3_differential_minimality_fails_on_short_tail :
    (match backupRun testHash idSched 2 3 "pg" [1, 2, 3, 4, 9] emptySys with
      | Except.ok (sys1, rF) =>
          (backupRun testHash idSched 2 3 "pg" [1, 2, 3, 4, 8] sys1).toOption.map
            (fun p => (p.2.backupType, positionsOfBackup p.1.store p.2.id,
              claimedDiffPositions testHash 2 [1, 2, 3, 4, 8] p.1.store rF.id p.2.totalBlocks))
      | Except.error _ => none)
      = some (backupTypeDifferential, [], [2])
    ∧ ¬ (([] : List Nat) = [2]) := by
  refine ⟨by decide, by decide⟩

/-- C4 (counterexample).  The artifact is not, in general, in ascending
`blockId` order: block rowids are assigned in the VALUES order of the bulk
INSERT, which follows the Go map iteration order of `insertablePositions`,
while the payloads are written sorted by position.  Running the full backup
of `[1,2,3,4]` (`blockSize = 2`, fresh store) under the legitimate schedule
that iterates the map in reverse insertion order yields the artifact
`[1,2,3,4]` with `blocks` rows `(1, hash [3,4])`, `(2, hash [1,2])`: the
ascending-`blockId` concatenation of the new payloads is `[3,4,1,2]`, which
differs from the artifact. -/
theorem C4_artifact_not_in_ascending_blockId_order :
    ((backupRun testHash revInsSched 2 3 "pg" [1, 2, 3, 4] emptySys).toOption.map
      (fun p => (p.1.artifact p.2.id,
        blockIdOrderedNewPayloads testHash 2 [1, 2, 3, 4] emptyStore p.1.store,
        p.1.store.blocks.map (fun b => (b.id, b.hash)))))
      = some (some [1, 2, 3, 4], [3, 4, 1, 2],
        [(1, testHash [3, 4]), (2, testHash [1, 2])])
    ∧ ¬ (([1, 2, 3, 4] : List Nat) = [3, 4, 1, 2])
    ∧ (∀ k (l : List (Nat × Nat)), (revInsSched.insOrd k l).Perm l)
    ∧ (∀ k (l : List (Nat × Nat)), revInsSched.hashOrd k l = l) := by
  refine ⟨by decide, by decide, fun k l => List.reverse_perm l, fun k l => rfl⟩

/-- C6.  The artifact size is never persisted: for the source `[7,8,7,8]`
(`blockSize = 2`, two equal blocks) the run succeeds, the artifact holds one
deduplicated payload (2 bytes), and `Backup.Run` assigns that length only to
the in-memory record — `updateBackupSize` is never called — so the stored
row's `size_in_bytes` remains the source size 4 ≠ 2. -/
theorem C6_store_size_not_updated :
    ((backupRun testHash idSched 2 3 "pg" [7, 8, 7, 8] emptySys).toOption.map
      (fun p => ((p.1.store.findBackup p.2.id).map BackupRow.sizeInBytes,
                 (p.1.artifact p.2.id).map List.length, p.2.sizeInBytes)))
      = some (some 4, some 2, 2)
    ∧ ¬ ((4 : Nat) = 2) := by
  refine ⟨by decide, by decide⟩

/-- C7.  `InsertVolume` returns a wrong id on conflict: on one connection,
insert volume `a`, then volume `b`, then volume `a` again.  The third call
conflicts, inserts nothing, and `LastInsertId` still reports the rowid of the
`b` insert (2), which is not 0 — so the code returns a row with id 2 for name
`a`, while the row stored under `a` has id 1. -/
theorem C7_insert_volume_conflict_wrong_id :
    (match emptyStore.InsertVolume "a" "p" with
      | Except.ok (s1, _) =>
          match s1.InsertVolume "b" "q" with
          | Except.ok (s2, _) =>
              (s2.InsertVolume "a" "r").toOption.map
                (fun p => (p.2.id, (p.1.FindVolume "a").map VolumeRow.id))
          | Except.error _ => none
      | Except.error _ => none)
      = some (2, some 1)
    ∧ ¬ ((2 : Nat) = 1) := by
  refine ⟨by decide, by decide⟩

/-- C8.  Not every error path of the write phases rolls back: when the
`INSERT INTO blocks …` `Exec` fails inside `Backup.writeBlocks`, the code
returns the error without calling `Rollback`, leaving the transaction open. -/
theorem C8_exec_error_leaves_tx_open :
    writeBlocksTxFlow ⟨false, false, true, false⟩ = (TxOutcome.leftOpen, true)
    ∧ ¬ (TxOutcome.leftOpen = TxOutcome.rolledBack)
    ∧ insertBlockPositionsTxFlow ⟨false, false, true, false⟩ = (TxOutcome.rolledBack, true) := by
  refine ⟨by decide, by decide, by decide⟩

/-- C10.  `hashBufferedData` only touches bytes inside the window buffer: for
every block index `i < bufEntries = len(buf) / blockSize` the Go slice
`buf[bs*i : bs*i+bs]` is in bounds (`bs*i + bs ≤ len(buf)`), the hashed slice
has full length `bs`, and the corresponding entry is produced — even when the
buffer length is not a multiple of the block size. -/
theorem C10_hashBufferedData_in_bounds (h : List Nat → Nat) (bs iteration cap : Nat)
    (buf : List Nat) (hbs : 0 < bs) :
    ∀ i, i < buf.length / bs →
      bs * i + bs ≤ buf.length ∧ (blockSlice bs buf i).length = bs ∧
      (iteration * cap + i, h (blockSlice bs buf i)) ∈
        hashBufferedData h bs iteration (buf.length / bs) cap buf := by
  intro i hi
  have h1 : bs * (i + 1) ≤ bs * (buf.length / bs) :=
    Nat.mul_le_mul_left bs hi
  have h2 : buf.length / bs * bs ≤ buf.length := Nat.div_mul_le_self buf.length bs
  have h3 : bs * i + bs ≤ buf.length := by
    calc bs * i + bs = bs * (i + 1) := by ring
    _ ≤ bs * (buf.length / bs) := h1
    _ = buf.length / bs * bs := by ring
    _ ≤ buf.length := h2
  refine ⟨h3, ?_, ?_⟩
  · simp only [blockSlice, List.length_take, List.length_drop]
    omega
  · simp only [hashBufferedData, List.mem_map, List.mem_range]
    exact ⟨i, hi, rfl⟩

/-- Witness for C10 at a concrete input: `bs = 2`, `buf = [0,1,2]` (length
not a multiple of 2), `i = 0`. -/
theorem C10_hashBufferedData_in_bounds_witness :
    0 < 2 ∧
      (2 * 0 + 2 ≤ ([0, 1, 2] : List Nat).length ∧
        (blockSlice 2 [0, 1, 2] 0).length = 2 ∧
        (0 * 1 + 0, testHash (blockSlice 2 [0, 1, 2] 0)) ∈
          hashBufferedData testHash 2 0 (([0, 1, 2] : List Nat).length / 2) 1 [0, 1, 2]) :=
  ⟨by decide, C10_hashBufferedData_in_bounds testHash 2 0 1 [0, 1, 2] (by decide) 0 (by decide)⟩

theorem chunksOf_nil (bs f : Nat) : chunksOf bs f [] = [] := by
  cases f <;> rfl

theorem chunksOf_succ_cons (bs f : Nat) (x : Nat) (xs : List Nat) :
    chunksOf bs (f + 1) (x :: xs)
      = (x :: xs).take bs :: chunksOf bs f ((x :: xs).drop bs) := rfl

theorem chunksOf_eq_chunkList (bs : Nat) (hbs : 0 < bs) :
    ∀ n f (l : List Nat), l.length ≤ n → l.length ≤ f →
      chunksOf bs f l = chunkList bs l := by
  intro n
  induction n with
  | zero =>
      intro f l h1 _
      have hl : l = [] := List.eq_nil_of_length_eq_zero (Nat.le_zero.mp h1)
      subst hl
      rw [chunksOf_nil]
      rfl
  | succ k ih =>
      intro f l h1 h2
      cases l with
      | nil => rw [chunksOf_nil]; rfl
      | cons x xs =>
          cases f with
          | zero => simp at h2
          | succ m =>
              have hdrop : ((x :: xs).drop bs).length = (x :: xs).length - bs :=
                List.length_drop bs (x :: xs)
              have hlen : (x :: xs).length = xs.length + 1 := rfl
              rw [chunksOf_succ_cons]
              show _ = chunksOf bs (x :: xs).length (x :: xs)
              rw [hlen, chunksOf_succ_cons]
              rw [ih m ((x :: xs).drop bs) (by omega) (by omega)]
              rw [ih xs.length ((x :: xs).drop bs) (by omega) (by omega)]

theorem chunkList_block_append (bs : Nat) (hbs : 0 < bs) (c fl : List Nat)
    (hc : c.length = bs) : chunkList bs (c ++ fl) = c :: chunkList bs fl := by
  cases c with
  | nil => simp at hc; omega
  | cons a as =>
      have hlen : ((a :: as) ++ fl).length = (as.length + fl.length) + 1 := by
        simp only [List.cons_append, List.length_cons, List.length_append]
      show chunksOf bs ((a :: as) ++ fl).length ((a :: as) ++ fl) = _
      rw [hlen]
      rw [show (a :: as) ++ fl = a :: (as ++ fl) from rfl]
      rw [chunksOf_succ_cons]
      rw [show a :: (as ++ fl) = (a :: as) ++ fl from rfl]
      rw [List.take_left' hc, List.drop_left' hc]
      rw [chunksOf_eq_chunkList bs hbs (as.length + fl.length) _ fl (by omega) (by omega)]

theorem chunkList_flatten (bs : Nat) (hbs : 0 < bs) :
    ∀ (cs : List (List Nat)), (∀ c ∈ cs, c.length = bs) →
      chunkList bs cs.flatten = cs := by
  intro cs
  induction cs with
  | nil => intro _; rfl
  | cons c cs ih =>
      intro hlen
      have hc : c.length = bs := hlen c (List.mem_cons_self c cs)
      have hrest : ∀ x ∈ cs, x.length = bs := fun x hx => hlen x (List.mem_cons_of_mem c hx)
      rw [List.flatten_cons, chunkList_block_append bs hbs c cs.flatten hc, ih hrest]

theorem mem_assocSet {m : List (Nat × Nat)} {k v : Nat} {x : Nat × Nat}
    (hx : x ∈ assocSet m k v) : x ∈ m ∨ x = (k, v) := by
  unfold assocSet at hx
  by_cases hc : m.any (fun p => decide (p.1 = k)) = true
  · simp only [hc, if_true, List.mem_map] at hx
    obtain ⟨p, hp, hpx⟩ := hx
    by_cases hpk : p.1 = k
    · simp only [hpk, if_true] at hpx
      exact Or.inr hpx.symm
    · simp only [hpk, if_false] at hpx
      exact Or.inl (hpx ▸ hp)
  · have hc2 : m.any (fun p => decide (p.1 = k)) = false := Bool.eq_false_iff.mpr hc
    simp [hc2] at hx
    exact hx

theorem map_fst_assocSet_of_any (m : List (Nat × Nat)) (k v : Nat)
    (h : m.any (fun p => decide (p.1 = k)) = true) :
    (assocSet m k v).map Prod.fst = m.map Prod.fst := by
  simp only [assocSet, h, if_true, List.map_map]
  refine List.map_congr_left ?_
  intro p hp
  by_cases hpk : p.1 = k
  · simp [hpk]
  · simp [hpk]

theorem map_fst_assocSet_of_not_any (m : List (Nat × Nat)) (k v : Nat)
    (h : m.any (fun p => decide (p.1 = k)) = false) :
    (assocSet m k v).map Prod.fst = m.map Prod.fst ++ [k] := by
  simp only [assocSet, h, Bool.false_eq_true, if_false, List.map_append]
  rfl

theorem not_mem_keys_of_not_any (m : List (Nat × Nat)) (k : Nat)
    (h : m.any (fun p => decide (p.1 = k)) = false) :
    k ∉ m.map Prod.fst := by
  intro hk
  obtain ⟨p, hp, hpk⟩ := List.mem_map.mp hk
  have h2 : m.any (fun q => decide (q.1 = k)) = true :=
    List.any_eq_true.mpr ⟨p, hp, decide_eq_true hpk⟩
  rw [h] at h2
  exact Bool.false_ne_true h2

theorem keys_subset_assocSet (m : List (Nat × Nat)) (k v a : Nat)
    (ha : a ∈ m.map Prod.fst) : a ∈ (assocSet m k v).map Prod.fst := by
  by_cases hc : m.any (fun p => decide (p.1 = k)) = true
  · rw [map_fst_assocSet_of_any m k v hc]; exact ha
  · rw [map_fst_assocSet_of_not_any m k v (Bool.eq_false_iff.mpr hc)]
    exact List.mem_append_left _ ha

theorem key_mem_assocSet (m : List (Nat × Nat)) (k v : Nat) :
    k ∈ (assocSet m k v).map Prod.fst := by
  by_cases hc : m.any (fun p => decide (p.1 = k)) = true
  · rw [map_fst_assocSet_of_any m k v hc]
    obtain ⟨p, hp, hpk⟩ := List.any_eq_true.mp hc
    simp only [decide_eq_true_eq] at hpk
    exact List.mem_map.mpr ⟨p, hp, hpk⟩
  · rw [map_fst_assocSet_of_not_any m k v (Bool.eq_false_iff.mpr hc)]
    exact List.mem_append_right _ (List.mem_singleton.mpr rfl)

theorem keys_nodup_assocSet (m : List (Nat × Nat)) (k v : Nat)
    (h : (m.map Prod.fst).Nodup) : ((assocSet m k v).map Prod.fst).Nodup := by
  by_cases hc : m.any (fun p => decide (p.1 = k)) = true
  · rw [map_fst_assocSet_of_any m k v hc]; exact h
  · have hc2 := Bool.eq_false_iff.mpr hc
    rw [map_fst_assocSet_of_not_any m k v hc2]
    have hk := not_mem_keys_of_not_any m k hc2
    simp [List.nodup_append, h, hk]

theorem mem_foldl_assocSet (l : List (Nat × Nat)) :
    ∀ (m : List (Nat × Nat)) (x : Nat × Nat),
      x ∈ l.foldl (fun acc kv => assocSet acc kv.2 kv.1) m →
      x ∈ m ∨ (x.2, x.1) ∈ l := by
  induction l with
  | nil => intro m x hx; exact Or.inl hx
  | cons kv l ih =>
      intro m x hx
      rcases ih (assocSet m kv.2 kv.1) x hx with h1 | h1
      · rcases mem_assocSet h1 with h2 | h2
        · exact Or.inl h2
        · refine Or.inr ?_
          have hxkv : (x.2, x.1) = kv := by rw [h2]
          rw [hxkv]
          exact List.mem_cons_self kv l
      · exact Or.inr (List.mem_cons_of_mem kv h1)

theorem keys_foldl_assocSet_complete (l : List (Nat × Nat)) :
    ∀ (m : List (Nat × Nat)) (d : Nat),
      (d ∈ m.map Prod.fst ∨ d ∈ l.map Prod.snd) →
      d ∈ (l.foldl (fun acc kv => assocSet acc kv.2 kv.1) m).map Prod.fst := by
  induction l with
  | nil =>
      intro m d hd
      rcases hd with hd | hd
      · exact hd
      · simp at hd
  | cons kv l ih =>
      intro m d hd
      rcases hd with hd | hd
      · exact ih _ d (Or.inl (keys_subset_assocSet m kv.2 kv.1 d hd))
      · rcases List.mem_map.mp hd with ⟨p, hp, hpd⟩
        rcases List.mem_cons.mp hp with hp1 | hp1
        · subst hp1
          exact ih _ d (Or.inl (hpd ▸ key_mem_assocSet m p.2 p.1))
        · exact ih _ d (Or.inr (List.mem_map.mpr ⟨p, hp1, hpd⟩))

theorem keys_foldl_assocSet_nodup (l : List (Nat × Nat)) :
    ∀ (m : List (Nat × Nat)), (m.map Prod.fst).Nodup →
      ((l.foldl (fun acc kv => assocSet acc kv.2 kv.1) m).map Prod.fst).Nodup := by
  induction l with
  | nil => intro m hm; exact hm
  | cons kv l ih =>
      intro m hm
      exact ih _ (keys_nodup_assocSet m kv.2 kv.1 hm)

theorem mem_buildReverseMap {l : List (Nat × Nat)} {x : Nat × Nat}
    (hx : x ∈ buildReverseMap l) : (x.2, x.1) ∈ l := by
  rcases mem_foldl_assocSet l [] x hx with h | h
  · simp at h
  · exact h

theorem keys_buildReverseMap_complete {l : List (Nat × Nat)} {d : Nat}
    (hd : d ∈ l.map Prod.snd) : d ∈ (buildReverseMap l).map Prod.fst :=
  keys_foldl_assocSet_complete l [] d (Or.inr hd)

theorem keys_buildReverseMap_nodup (l : List (Nat × Nat)) :
    ((buildReverseMap l).map Prod.fst).Nodup :=
  keys_foldl_assocSet_nodup l [] List.nodup_nil

theorem mem_hashBufferedData {h : List Nat → Nat} {bs it E cap : Nat} {buf : List Nat}
    {x : Nat × Nat} :
    x ∈ hashBufferedData h bs it E cap buf ↔
      ∃ i, i < E ∧ x = (it * cap + i, h (blockSlice bs buf i)) := by
  simp only [hashBufferedData, List.mem_map, List.mem_range]
  constructor
  · rintro ⟨i, hi, rfl⟩; exact ⟨i, hi, rfl⟩
  · rintro ⟨i, hi, rfl⟩; exact ⟨i, hi, rfl⟩

theorem contains_nat_iff (l : List Nat) (a : Nat) : l.contains a = true ↔ a ∈ l := by
  simp [List.contains]

theorem writeBlocks_reps_spec
    (h : List Nat → Nat) (hk ik : List (Nat × Nat) → List (Nat × Nat))
    (bs iteration E cap : Nat) (blockBuf : List Nat) (st st2 : Store)
    (out : List Nat) (hm : List (Nat × Nat))
    (hhk : ∀ l, (hk l).Perm l) (hik : ∀ l, (ik l).Perm l)
    (hbs : 0 < bs) (hE : bs * E ≤ blockBuf.length)
    (hrun : writeBlocks h hk ik bs iteration E cap blockBuf st = Except.ok (st2, out, hm)) :
    ∃ reps : List Nat,
      List.Sorted (fun a b => a ≤ b) reps ∧
      reps.Nodup ∧
      (∀ p ∈ reps, ∃ i, i < E ∧ p = iteration * cap + i) ∧
      (∀ p ∈ reps,
        st.hasDigest (h (blockSlice bs blockBuf (p - iteration * cap))) = false) ∧
      (∀ p ∈ reps, ∀ q ∈ reps,
        h (blockSlice bs blockBuf (p - iteration * cap))
          = h (blockSlice bs blockBuf (q - iteration * cap)) → p = q) ∧
      (∀ d, (∃ i, i < E ∧ h (blockSlice bs blockBuf i) = d) → st.hasDigest d = false →
        ∃ p, p ∈ reps ∧ h (blockSlice bs blockBuf (p - iteration * cap)) = d) ∧
      chunkList bs out = reps.map (fun p => blockSlice bs blockBuf (p - iteration * cap)) ∧
      (st2.blocks.map BlockRow.hash).Perm
        ((st.blocks.map BlockRow.hash) ++
          reps.map (fun p => h (blockSlice bs blockBuf (p - iteration * cap)))) := by
  set HM := hashBufferedData h bs iteration E cap blockBuf with hHM
  set RM := buildReverseMap (hk HM) with hRMdef
  simp only [writeBlocks] at hrun
  rw [← hHM, ← hRMdef] at hrun
  -- pair characterisation of the reverse map
  have hPairChar : ∀ x ∈ RM,
      (∃ i, i < E ∧ x.2 = iteration * cap + i) ∧
      x.1 = h (blockSlice bs blockBuf (x.2 - iteration * cap)) := by
    intro x hx
    have hxHM : (x.2, x.1) ∈ HM := (hhk HM).mem_iff.mp (mem_buildReverseMap hx)
    rcases mem_hashBufferedData.mp hxHM with ⟨i, hi, hxi⟩
    have h2 : x.2 = iteration * cap + i := congrArg Prod.fst hxi
    have h1 : x.1 = h (blockSlice bs blockBuf i) := congrArg Prod.snd hxi
    refine ⟨⟨i, hi, h2⟩, ?_⟩
    rw [h2, Nat.add_sub_cancel_left, h1]
  split at hrun
  · -- identifyDuplicateBlocks errored
    simp at hrun
  · rename_i dups heq
    have hdups : dups = (RM.map Prod.fst).filter (fun d => st.hasDigest d) := by
      unfold identifyDuplicateBlocks at heq
      by_cases hke : (RM.map Prod.fst).isEmpty
      · simp [hke] at heq
      · simp [hke] at heq
        exact heq.symm
    -- membership in the insertable list
    have hInsChar : ∀ x, x ∈ RM.filter (fun p => !dups.contains p.1) ↔
        x ∈ RM ∧ st.hasDigest x.1 = false := by
      intro x
      constructor
      · intro hx
        rcases List.mem_filter.mp hx with ⟨hx1, hx2⟩
        refine ⟨hx1, ?_⟩
        have hnc : dups.contains x.1 = false := by
          cases hcc : dups.contains x.1 with
          | false => rfl
          | true => rw [hcc] at hx2; simp at hx2
        by_contra hcon
        have hdt : st.hasDigest x.1 = true := by
          cases hdd : st.hasDigest x.1 with
          | false => exact absurd hdd hcon
          | true => rfl
        have hmemd : x.1 ∈ dups := by
          rw [hdups]
          exact List.mem_filter.mpr ⟨List.mem_map.mpr ⟨x, hx1, rfl⟩, hdt⟩
        rw [(contains_nat_iff dups x.1).mpr hmemd] at hnc
        simp at hnc
      · intro ⟨hx1, hx2⟩
        refine List.mem_filter.mpr ⟨hx1, ?_⟩
        have : x.1 ∉ dups := by
          rw [hdups]
          intro hmem
          rcases List.mem_filter.mp hmem with ⟨_, hdt⟩
          rw [hx2] at hdt
          exact Bool.false_ne_true hdt
        cases hcc : dups.contains x.1 with
        | false => rfl
        | true => exact absurd ((contains_nat_iff dups x.1).mp hcc) this
    split at hrun
    · -- no insertable digests: nothing written, store unchanged
      rename_i hins
      have hinsnil : RM.filter (fun p => !dups.contains p.1) = [] :=
        List.isEmpty_iff.mp hins
      simp only [Except.ok.injEq, Prod.mk.injEq] at hrun
      obtain ⟨h1, h2, h3⟩ := hrun
      refine ⟨[], List.sorted_nil, List.nodup_nil, ?_, ?_, ?_, ?_, ?_, ?_⟩
      · intro p hp; simp at hp
      · intro p hp; simp at hp
      · intro p hp; simp at hp
      · intro d hd hnew
        exfalso
        rcases hd with ⟨i, hi, hdi⟩
        have hHMmem : (iteration * cap + i, d) ∈ HM := by
          rw [hHM]
          exact mem_hashBufferedData.mpr ⟨i, hi, by rw [hdi]⟩
        have hdsnd : d ∈ (hk HM).map Prod.snd := by
          refine List.mem_map.mpr ⟨(iteration * cap + i, d), ?_, rfl⟩
          exact (hhk HM).mem_iff.mpr hHMmem
        have hdkeys : d ∈ RM.map Prod.fst := keys_buildReverseMap_complete hdsnd
        rcases List.mem_map.mp hdkeys with ⟨x, hxRM, hx1⟩
        have : x ∈ RM.filter (fun p => !dups.contains p.1) :=
          (hInsChar x).mpr ⟨hxRM, by rw [hx1]; exact hnew⟩
        rw [hinsnil] at this
        simp at this
      · rw [← h2]
        rfl
      · rw [← h1]
        simp
    · -- new digests inserted, payloads written sorted by position
      rename_i hins
      simp only [Except.ok.injEq, Prod.mk.injEq] at hrun
      obtain ⟨h1, h2, h3⟩ := hrun
      -- abbreviations
      have hOrdPerm : (ik (RM.filter (fun p => !dups.contains p.1))).Perm
          (RM.filter (fun p => !dups.contains p.1)) := hik _
      have hRepsPerm : (sortInts ((ik (RM.filter (fun p => !dups.contains p.1))).map Prod.snd)).Perm
          ((RM.filter (fun p => !dups.contains p.1)).map Prod.snd) :=
        (List.perm_insertionSort _ _).trans (hOrdPerm.map Prod.snd)
      have hKeysNodupRM : (RM.map Prod.fst).Nodup := keys_buildReverseMap_nodup _
      have hSubl : (RM.filter (fun p => !dups.contains p.1)).Sublist RM :=
        List.filter_sublist RM
      have hKeysNodupINS : ((RM.filter (fun p => !dups.contains p.1)).map Prod.fst).Nodup :=
        List.Nodup.sublist (hSubl.map Prod.fst) hKeysNodupRM
      have hINSNodup : (RM.filter (fun p => !dups.contains p.1)).Nodup :=
        List.Nodup.of_map Prod.fst hKeysNodupINS
      have hInj1 : ∀ x ∈ RM.filter (fun p => !dups.contains p.1),
          ∀ y ∈ RM.filter (fun p => !dups.contains p.1), x.1 = y.1 → x = y :=
        List.inj_on_of_nodup_map hKeysNodupINS
      have hSndDet : ∀ x ∈ RM.filter (fun p => !dups.contains p.1),
          x.1 = h (blockSlice bs blockBuf (x.2 - iteration * cap)) := by
        intro x hx
        exact (hPairChar x ((hInsChar x).mp hx).1).2
      have hWinMem : ∀ x ∈ RM.filter (fun p => !dups.contains p.1),
          ∃ i, i < E ∧ x.2 = iteration * cap + i := by
        intro x hx
        exact (hPairChar x ((hInsChar x).mp hx).1).1
      have hInjSnd : ∀ x ∈ RM.filter (fun p => !dups.contains p.1),
          ∀ y ∈ RM.filter (fun p => !dups.contains p.1), x.2 = y.2 → x = y := by
        intro x hx y hy hxy
        refine hInj1 x hx y hy ?_
        rw [hSndDet x hx, hSndDet y hy, hxy]
      have hSndNodup : ((RM.filter (fun p => !dups.contains p.1)).map Prod.snd).Nodup :=
        List.Nodup.map_on hInjSnd hINSNodup
      have hRepsNodup : (sortInts ((ik (RM.filter (fun p => !dups.contains p.1))).map Prod.snd)).Nodup :=
        hRepsPerm.nodup_iff.mpr hSndNodup
      have hMemReps : ∀ p,
          p ∈ sortInts ((ik (RM.filter (fun p => !dups.contains p.1))).map Prod.snd) ↔
          ∃ x, x ∈ RM.filter (fun p => !dups.contains p.1) ∧ x.2 = p := by
        intro p
        rw [hRepsPerm.mem_iff, List.mem_map]
      refine ⟨sortInts ((ik (RM.filter (fun p => !dups.contains p.1))).map Prod.snd),
        ?_, hRepsNodup, ?_, ?_, ?_, ?_, ?_, ?_⟩
      · exact List.sorted_insertionSort _ _
      · intro p hp
        rcases (hMemReps p).mp hp with ⟨x, hx, rfl⟩
        exact hWinMem x hx
      · intro p hp
        rcases (hMemReps p).mp hp with ⟨x, hx, rfl⟩
        rw [← hSndDet x hx]
        exact ((hInsChar x).mp hx).2
      · intro p hp q hq hpq
        rcases (hMemReps p).mp hp with ⟨x, hx, rfl⟩
        rcases (hMemReps q).mp hq with ⟨y, hy, rfl⟩
        rw [← hSndDet x hx, ← hSndDet y hy] at hpq
        rw [hInj1 x hx y hy hpq]
      · intro d hd hnew
        rcases hd with ⟨i, hi, hdi⟩
        have hHMmem : (iteration * cap + i, d) ∈ HM := by
          rw [hHM]
          exact mem_hashBufferedData.mpr ⟨i, hi, by rw [hdi]⟩
        have hdsnd : d ∈ (hk HM).map Prod.snd :=
          List.mem_map.mpr ⟨(iteration * cap + i, d), (hhk HM).mem_iff.mpr hHMmem, rfl⟩
        have hdkeys : d ∈ RM.map Prod.fst := keys_buildReverseMap_complete hdsnd
        rcases List.mem_map.mp hdkeys with ⟨x, hxRM, hx1⟩
        have hxINS : x ∈ RM.filter (fun p => !dups.contains p.1) :=
          (hInsChar x).mpr ⟨hxRM, by rw [hx1]; exact hnew⟩
        refine ⟨x.2, (hMemReps x.2).mpr ⟨x, hxINS, rfl⟩, ?_⟩
        rw [← hSndDet x hxINS]
        exact hx1
      · rw [← h2]
        refine chunkList_flatten bs hbs _ ?_
        intro c hc
        rcases List.mem_map.mp hc with ⟨p, hp, rfl⟩
        rcases (hMemReps p).mp hp with ⟨x, hx, rfl⟩
        rcases hWinMem x hx with ⟨i, hi, hxi⟩
        rw [hxi, Nat.add_sub_cancel_left]
        simp only [blockSlice, List.length_take, List.length_drop]
        have : bs * (i + 1) ≤ bs * E := Nat.mul_le_mul_left bs hi
        have h2b : bs * (i + 1) = bs * i + bs := by ring
        omega
      · rw [← h1]
        simp only [List.map_append]
        refine List.Perm.append_left (st.blocks.map BlockRow.hash) ?_
        have hNewEq : ((ik (RM.filter (fun p => !dups.contains p.1))).enum.map
            (fun jp => BlockRow.mk (st.nextBlockId + jp.1) jp.2.1)).map BlockRow.hash
            = (ik (RM.filter (fun p => !dups.contains p.1))).map Prod.fst := by
          rw [List.map_map]
          have : ((ik (RM.filter (fun p => !dups.contains p.1))).enum.map Prod.snd).map Prod.fst
              = (ik (RM.filter (fun p => !dups.contains p.1))).map Prod.fst := by
            rw [List.enum_map_snd]
          rw [← this, List.map_map]
          rfl
        rw [hNewEq]
        have P1 : ((ik (RM.filter (fun p => !dups.contains p.1))).map Prod.fst).Perm
            ((RM.filter (fun p => !dups.contains p.1)).map Prod.fst) := hOrdPerm.map Prod.fst
        have E1 : (RM.filter (fun p => !dups.contains p.1)).map
              (fun x => h (blockSlice bs blockBuf (x.2 - iteration * cap)))
            = (RM.filter (fun p => !dups.contains p.1)).map Prod.fst :=
          List.map_congr_left (fun x hx => (hSndDet x hx).symm)
        have P2 : ((sortInts ((ik (RM.filter (fun p => !dups.contains p.1))).map Prod.snd)).map
              (fun p => h (blockSlice bs blockBuf (p - iteration * cap)))).Perm
            ((RM.filter (fun p => !dups.contains p.1)).map
              (fun x => h (blockSlice bs blockBuf (x.2 - iteration * cap)))) := by
          have := hRepsPerm.map (fun p => h (blockSlice bs blockBuf (p - iteration * cap)))
          rw [List.map_map] at this
          exact this
        exact P1.trans (E1 ▸ P2.symm)

theorem filter_eq_singleton_of_unique {α : Type} {l : List α} {p : α → Bool} {a : α}
    (hnodup : l.Nodup) (ha : a ∈ l) (hpa : p a = true)
    (huniq : ∀ b ∈ l, p b = true → b = a) : l.filter p = [a] := by
  induction l with
  | nil => simp at ha
  | cons x xs ih =>
      have hnd := List.nodup_cons.mp hnodup
      rcases List.mem_cons.mp ha with rfl | hm
      · rw [List.filter_cons, if_pos hpa]
        have hnil : xs.filter p = [] := by
          refine List.filter_eq_nil_iff.mpr ?_
          intro b hb
          cases hpb : p b with
          | false => simp
          | true =>
              exfalso
              have := huniq b (List.mem_cons_of_mem _ hb) hpb
              rw [this] at hb
              exact hnd.1 hb
        rw [hnil]
      · have hpx : p x = false := by
          cases hpx : p x with
          | false => rfl
          | true =>
              exfalso
              have := huniq x (List.mem_cons_self x xs) hpx
              rw [this] at hnd
              exact hnd.1 hm
        rw [List.filter_cons, if_neg (by simp [hpx])]
        exact ih hnd.2 hm (fun b hb hpb => huniq b (List.mem_cons_of_mem _ hb) hpb)

/-- C4 (amended).  What `Backup.writeBlocks` actually appends per window, for
every legitimate map iteration order: there is a set of representative
positions — one for each digest of the window that is not yet in the store,
each the position of a block bearing that digest — listed in ascending order,
such that the bytes appended are exactly the corresponding
`blockSize`-sized blocks in that order (one payload per new digest, no
others), and exactly those digests are appended to the `blocks` table.
Ascending `blockId` order is not guaranteed (see the counterexample): rowids
are assigned in map-iteration order, the payload order is by position. -/
theorem C4_window_artifact_is_position_sorted_new_payloads
    (h : List Nat → Nat) (hk ik : List (Nat × Nat) → List (Nat × Nat))
    (bs iteration E cap : Nat) (blockBuf : List Nat) (st st2 : Store)
    (out : List Nat) (hm : List (Nat × Nat))
    (hhk : ∀ l, (hk l).Perm l) (hik : ∀ l, (ik l).Perm l)
    (hbs : 0 < bs) (hE : bs * E ≤ blockBuf.length)
    (hrun : writeBlocks h hk ik bs iteration E cap blockBuf st = Except.ok (st2, out, hm)) :
    ∃ reps : List Nat,
      List.Sorted (fun a b => a ≤ b) reps ∧
      reps.Nodup ∧
      (∀ p ∈ reps, ∃ i, i < E ∧ p = iteration * cap + i) ∧
      (∀ p ∈ reps,
        st.hasDigest (h (blockSlice bs blockBuf (p - iteration * cap))) = false) ∧
      (∀ p ∈ reps, ∀ q ∈ reps,
        h (blockSlice bs blockBuf (p - iteration * cap))
          = h (blockSlice bs blockBuf (q - iteration * cap)) → p = q) ∧
      (∀ d, (∃ i, i < E ∧ h (blockSlice bs blockBuf i) = d) → st.hasDigest d = false →
        ∃ p, p ∈ reps ∧ h (blockSlice bs blockBuf (p - iteration * cap)) = d) ∧
      chunkList bs out = reps.map (fun p => blockSlice bs blockBuf (p - iteration * cap)) ∧
      (st2.blocks.map BlockRow.hash).Perm
        ((st.blocks.map BlockRow.hash) ++
          reps.map (fun p => h (blockSlice bs blockBuf (p - iteration * cap)))) :=
  writeBlocks_reps_spec h hk ik bs iteration E cap blockBuf st st2 out hm hhk hik hbs hE hrun

/-- Witness for C4 at a concrete window: `blockSize = 2`, buffer
`[1,2,3,4]`, fresh store, maps iterated in insertion order. -/
theorem C4_window_artifact_witness :
    (0 : Nat) < 2 ∧ 2 * 2 ≤ ([1, 2, 3, 4] : List Nat).length ∧
    (∃ reps : List Nat,
      List.Sorted (fun a b => a ≤ b) reps ∧
      reps.Nodup ∧
      (∀ p ∈ reps, ∃ i, i < 2 ∧ p = 0 * 3 + i) ∧
      (∀ p ∈ reps,
        emptyStore.hasDigest (testHash (blockSlice 2 [1, 2, 3, 4] (p - 0 * 3))) = false) ∧
      (∀ p ∈ reps, ∀ q ∈ reps,
        testHash (blockSlice 2 [1, 2, 3, 4] (p - 0 * 3))
          = testHash (blockSlice 2 [1, 2, 3, 4] (q - 0 * 3)) → p = q) ∧
      (∀ d, (∃ i, i < 2 ∧ testHash (blockSlice 2 [1, 2, 3, 4] i) = d) →
        emptyStore.hasDigest d = false →
        ∃ p, p ∈ reps ∧ testHash (blockSlice 2 [1, 2, 3, 4] (p - 0 * 3)) = d) ∧
      chunkList 2 [1, 2, 3, 4]
        = reps.map (fun p => blockSlice 2 [1, 2, 3, 4] (p - 0 * 3)) ∧
      (({ emptyStore with
            blocks := [⟨1, testHash [1, 2]⟩, ⟨2, testHash [3, 4]⟩]
            nextBlockId := 3, lastInsertRowId := 2 } : Store).blocks.map BlockRow.hash).Perm
        ((emptyStore.blocks.map BlockRow.hash) ++
          reps.map (fun p => testHash (blockSlice 2 [1, 2, 3, 4] (p - 0 * 3))))) :=
  ⟨by decide, by decide,
    C4_window_artifact_is_position_sorted_new_payloads testHash (fun l => l) (fun l => l)
      2 0 2 3 [1, 2, 3, 4] emptyStore
      { emptyStore with
          blocks := [⟨1, testHash [1, 2]⟩, ⟨2, testHash [3, 4]⟩]
          nextBlockId := 3, lastInsertRowId := 2 }
      [1, 2, 3, 4] [(0, testHash [1, 2]), (1, testHash [3, 4])]
      (fun l => List.Perm.refl l) (fun l => List.Perm.refl l)
      (by decide) (by decide) rfl⟩

/-- C5.  A new-to-the-store digest occurring at two or more positions of a
window is written exactly once, and the payload written is the block at the
lowest such position: among the `blockSize`-chunks of the bytes the window
appends, exactly one hashes to that digest, and it equals the block at the
least position bearing the digest (assuming the hash does not collide on the
window's blocks).  Holds for every legitimate map iteration order. -/
theorem C5_duplicate_new_digest_written_once_lowest
    (h : List Nat → Nat) (hk ik : List (Nat × Nat) → List (Nat × Nat))
    (bs iteration E cap : Nat) (blockBuf : List Nat) (st st2 : Store)
    (out : List Nat) (hm : List (Nat × Nat)) (d : Nat)
    (hhk : ∀ l, (hk l).Perm l) (hik : ∀ l, (ik l).Perm l)
    (hbs : 0 < bs) (hE : bs * E ≤ blockBuf.length)
    (hrun : writeBlocks h hk ik bs iteration E cap blockBuf st = Except.ok (st2, out, hm))
    (hinj : ∀ i, i < E → ∀ j, j < E →
      h (blockSlice bs blockBuf i) = h (blockSlice bs blockBuf j) →
      blockSlice bs blockBuf i = blockSlice bs blockBuf j)
    (hnew : st.hasDigest d = false)
    (hocc : 2 ≤ ((List.range E).filter
      (fun i => decide (h (blockSlice bs blockBuf i) = d))).length) :
    (chunkList bs out).filter (fun c => decide (h c = d))
      = [blockSlice bs blockBuf
          (((List.range E).filter
            (fun i => decide (h (blockSlice bs blockBuf i) = d))).headD 0)] := by
  obtain ⟨reps, hsort, hnodup, hwin, hnewr, huniq, hcompl, hchunk, hperm⟩ :=
    writeBlocks_reps_spec h hk ik bs iteration E cap blockBuf st st2 out hm hhk hik hbs hE hrun
  have hfilne :
      (List.range E).filter (fun i => decide (h (blockSlice bs blockBuf i) = d)) ≠ [] := by
    intro hnil
    rw [hnil] at hocc
    simp at hocc
  rcases hfl : (List.range E).filter (fun i => decide (h (blockSlice bs blockBuf i) = d)) with
    _ | ⟨iMin, rest⟩
  · exact absurd hfl hfilne
  · have hiMinMem : iMin ∈
        (List.range E).filter (fun i => decide (h (blockSlice bs blockBuf i) = d)) := by
      rw [hfl]
      exact List.mem_cons_self iMin rest
    have hiM := List.mem_filter.mp hiMinMem
    have hiMinE : iMin < E := List.mem_range.mp hiM.1
    have hdiMin : h (blockSlice bs blockBuf iMin) = d := of_decide_eq_true hiM.2
    rcases hcompl d ⟨iMin, hiMinE, hdiMin⟩ hnew with ⟨p0, hp0, hdp0⟩
    rw [hchunk]
    rw [List.filter_map]
    have hfilr : reps.filter
        ((fun c => decide (h c = d)) ∘ (fun p => blockSlice bs blockBuf (p - iteration * cap)))
        = [p0] := by
      refine filter_eq_singleton_of_unique hnodup hp0 ?_ ?_
      · simp only [Function.comp]
        exact decide_eq_true hdp0
      · intro q hq hpq
        simp only [Function.comp, decide_eq_true_eq] at hpq
        exact huniq q hq p0 hp0 (by rw [hpq, hdp0])
    rw [hfilr]
    have hchunkp0 : blockSlice bs blockBuf (p0 - iteration * cap) = blockSlice bs blockBuf iMin := by
      rcases hwin p0 hp0 with ⟨i0, hi0, hp0i⟩
      rw [hp0i, Nat.add_sub_cancel_left]
      have hd0 : h (blockSlice bs blockBuf i0) = h (blockSlice bs blockBuf iMin) := by
        have : h (blockSlice bs blockBuf (p0 - iteration * cap)) = d := hdp0
        rw [hp0i, Nat.add_sub_cancel_left] at this
        rw [this, hdiMin]
      exact hinj i0 hi0 iMin hiMinE hd0
    rw [List.map_cons, List.map_nil, hchunkp0]
    rfl

/-- Witness for C5 at a concrete window: `blockSize = 2`, buffer
`[5,6,5,6,7,8]` (digest of `[5,6]` at positions 0 and 1), fresh store. -/
theorem C5_duplicate_new_digest_witness :
    (0 : Nat) < 2 ∧ 2 * 3 ≤ ([5, 6, 5, 6, 7, 8] : List Nat).length ∧
    emptyStore.hasDigest (testHash [5, 6]) = false ∧
    2 ≤ ((List.range 3).filter
      (fun i => decide (testHash (blockSlice 2 [5, 6, 5, 6, 7, 8] i) = testHash [5, 6]))).length ∧
    (chunkList 2 [5, 6, 7, 8]).filter (fun c => decide (testHash c = testHash [5, 6]))
      = [blockSlice 2 [5, 6, 5, 6, 7, 8]
          (((List.range 3).filter
            (fun i => decide (testHash (blockSlice 2 [5, 6, 5, 6, 7, 8] i) = testHash [5, 6]))).headD 0)] :=
  ⟨by decide, by decide, by decide, by decide,
    C5_duplicate_new_digest_written_once_lowest testHash (fun l => l) (fun l => l)
      2 0 3 3 [5, 6, 5, 6, 7, 8] emptyStore
      { emptyStore with
          blocks := [⟨1, testHash [5, 6]⟩, ⟨2, testHash [7, 8]⟩]
          nextBlockId := 3, lastInsertRowId := 2 }
      [5, 6, 7, 8] [(0, testHash [5, 6]), (1, testHash [5, 6]), (2, testHash [7, 8])]
      (testHash [5, 6])
      (fun l => List.Perm.refl l) (fun l => List.Perm.refl l)
      (by decide) (by decide) rfl (by decide) (by decide) (by decide)⟩

theorem writeBlocks_ok_facts
    (h : List Nat → Nat) (hk ik : List (Nat × Nat) → List (Nat × Nat))
    (bs iteration E cap : Nat) (blockBuf : List Nat) (st st2 : Store)
    (out : List Nat) (hm : List (Nat × Nat))
    (hhk : ∀ l, (hk l).Perm l)
    (hrun : writeBlocks h hk ik bs iteration E cap blockBuf st = Except.ok (st2, out, hm)) :
    st2.positions = st.positions ∧
    hm = hashBufferedData h bs iteration E cap blockBuf ∧ 0 < E := by
  simp only [writeBlocks] at hrun
  split at hrun
  · simp at hrun
  · rename_i dups heq
    have hkeysne : ¬ ((buildReverseMap
        (hk (hashBufferedData h bs iteration E cap blockBuf))).map Prod.fst).isEmpty = true := by
      intro hke
      unfold identifyDuplicateBlocks at heq
      simp [hke] at heq
    have hEpos : 0 < E := by
      by_contra hE0
      have hE0 : E = 0 := by omega
      subst hE0
      have hHMnil : hashBufferedData h bs iteration 0 cap blockBuf = [] := rfl
      have hhknil : hk (hashBufferedData h bs iteration 0 cap blockBuf) = [] := by
        have := hhk (hashBufferedData h bs iteration 0 cap blockBuf)
        rw [hHMnil] at this
        exact List.Perm.eq_nil this
      rw [hhknil] at hkeysne
      exact hkeysne rfl
    split at hrun
    · simp only [Except.ok.injEq, Prod.mk.injEq] at hrun
      obtain ⟨h1, _, h3⟩ := hrun
      exact ⟨by rw [← h1], h3.symm, hEpos⟩
    · simp only [Except.ok.injEq, Prod.mk.injEq] at hrun
      obtain ⟨h1, _, h3⟩ := hrun
      exact ⟨by rw [← h1], h3.symm, hEpos⟩

theorem insertBlockPositionsTransaction_full
    (h : List Nat → Nat) (bs recId : Nat) (btype : String)
    (lastFullId iteration E cap : Nat) (blockBuf : List Nat) (st st2 : Store)
    (hbt : ¬ btype = backupTypeDifferential) (hE : 0 < E)
    (hrun : insertBlockPositionsTransaction recId btype lastFullId iteration E cap
      (hashBufferedData h bs iteration E cap blockBuf) st = Except.ok st2) :
    positionsOfBackup st2 recId
      = positionsOfBackup st recId ++ List.range' (iteration * cap) E := by
  have hHMne : (hashBufferedData h bs iteration E cap blockBuf).isEmpty = false := by
    have hlen : (hashBufferedData h bs iteration E cap blockBuf).length = E := by
      simp [hashBufferedData]
    cases hl : (hashBufferedData h bs iteration E cap blockBuf).isEmpty with
    | false => rfl
    | true =>
        exfalso
        rw [List.isEmpty_iff.mp hl] at hlen
        simp at hlen
        omega
  unfold insertBlockPositionsTransaction at hrun
  rw [hHMne] at hrun
  simp only [Bool.false_eq_true, if_false] at hrun
  rw [if_neg hbt] at hrun
  have hrows : ((List.range E).filterMap (fun i =>
      let pos := iteration * cap + i
      let hv := (assocLookup (hashBufferedData h bs iteration E cap blockBuf) pos).getD 0
      if btype = backupTypeDifferential ∧ assocLookup [] pos = some hv then none
      else some (recId, (st.findBlockIdByHash hv).getD 0, pos)))
      = (List.range E).map (fun i =>
          (recId, (st.findBlockIdByHash
            ((assocLookup (hashBufferedData h bs iteration E cap blockBuf)
              (iteration * cap + i)).getD 0)).getD 0, iteration * cap + i)) := by
    refine List.filterMap_eq_map_iff_forall_eq_some.mpr ?_
    intro i _
    rw [if_neg (fun hand => hbt hand.1)]
  rw [hrows] at hrun
  have hrowsne : ((List.range E).map (fun i =>
      (recId, (st.findBlockIdByHash
        ((assocLookup (hashBufferedData h bs iteration E cap blockBuf)
          (iteration * cap + i)).getD 0)).getD 0, iteration * cap + i))).isEmpty = false := by
    cases hl : ((List.range E).map (fun i =>
        (recId, (st.findBlockIdByHash
          ((assocLookup (hashBufferedData h bs iteration E cap blockBuf)
            (iteration * cap + i)).getD 0)).getD 0, iteration * cap + i))).isEmpty with
    | false => rfl
    | true =>
        exfalso
        have := List.isEmpty_iff.mp hl
        rw [List.map_eq_nil_iff, List.range_eq_nil] at this
        omega
  rw [hrowsne] at hrun
  simp only [Bool.false_eq_true, if_false, Except.ok.injEq] at hrun
  rw [← hrun]
  unfold positionsOfBackup
  rw [List.filter_append, List.map_append]
  congr 1
  have hfilter : ∀ (rows : List (Nat × Nat × Nat)), (∀ r ∈ rows, r.1 = recId) →
      ((rows.enum.map (fun jr =>
        PositionRow.mk (st.nextPositionId + jr.1) jr.2.1 jr.2.2.1 jr.2.2.2)).filter
          (fun p => decide (p.backupId = recId))).map PositionRow.position
      = rows.map (fun r => r.2.2) := by
    intro rows hall
    have hkeep : (rows.enum.map (fun jr =>
        PositionRow.mk (st.nextPositionId + jr.1) jr.2.1 jr.2.2.1 jr.2.2.2)).filter
          (fun p => decide (p.backupId = recId))
        = rows.enum.map (fun jr =>
            PositionRow.mk (st.nextPositionId + jr.1) jr.2.1 jr.2.2.1 jr.2.2.2) := by
      refine List.filter_eq_self.mpr ?_
      intro p hp
      rcases List.mem_map.mp hp with ⟨jr, hjr, rfl⟩
      have : jr.2 ∈ rows := by
        have h2 : Prod.snd jr ∈ rows.enum.map Prod.snd := List.mem_map_of_mem Prod.snd hjr
        rw [List.enum_map_snd] at h2
        exact h2
      exact decide_eq_true (hall jr.2 this)
    rw [hkeep, List.map_map]
    have : ((rows.enum.map Prod.snd).map (fun r => r.2.2)) = rows.map (fun r => r.2.2) := by
      rw [List.enum_map_snd]
    rw [← this, List.map_map]
    rfl
  rw [hfilter _ (by intro r hr; rcases List.mem_map.mp hr with ⟨i, _, rfl⟩; rfl)]
  rw [List.map_map]
  rw [List.range'_eq_map_range]
  rfl

theorem processWindow_full_positions (c : BkCtx) (k : Nat) (st st2 : Store) (outB : List Nat)
    (hhk : ∀ l, (c.hashOrd k l).Perm l)
    (hbt : ¬ c.btype = backupTypeDifferential)
    (hrun : processWindow c k st = Except.ok (st2, outB)) :
    positionsOfBackup st2 c.recId
      = positionsOfBackup st c.recId
        ++ List.range' (k * c.cap)
          (((c.source.drop (k * c.cap * c.bs)).take (c.cap * c.bs)).length / c.bs) := by
  simp only [processWindow] at hrun
  split at hrun
  · simp at hrun
  · rename_i stm outm hmm hwb
    split at hrun
    · simp at hrun
    · rename_i stf hbp
      simp only [Except.ok.injEq, Prod.mk.injEq] at hrun
      obtain ⟨h1, h2⟩ := hrun
      obtain ⟨hpos, hhm, hE⟩ := writeBlocks_ok_facts c.hash (c.hashOrd k) (c.insOrd k)
        c.bs k _ c.cap _ st stm outm hmm hhk hwb
      rw [hhm] at hbp
      have := insertBlockPositionsTransaction_full c.hash c.bs c.recId c.btype c.lastFullId
        k _ c.cap _ stm stf hbt hE hbp
      rw [← h1, this]
      unfold positionsOfBackup
      rw [hpos]

theorem runWindows_full_positions (c : BkCtx) (totalBlocks : Nat)
    (hhk : ∀ j l, (c.hashOrd j l).Perm l)
    (hbt : ¬ c.btype = backupTypeDifferential)
    (hbs : 0 < c.bs)
    (hTB : c.source.length / c.bs ≤ totalBlocks) :
    ∀ fuel k st art st2 art2,
      runWindows c totalBlocks fuel k st art = Except.ok (st2, art2) →
      positionsOfBackup st2 c.recId
        = positionsOfBackup st c.recId
          ++ List.range' (k * c.cap) (c.source.length / c.bs - k * c.cap) := by
  intro fuel
  induction fuel with
  | zero => intro k st art st2 art2 hrun; simp [runWindows] at hrun
  | succ f ih =>
      intro k st art st2 art2 hrun
      unfold runWindows at hrun
      split at hrun
      · rename_i hlt
        split at hrun
        · rename_i hbreak
          simp only [Except.ok.injEq, Prod.mk.injEq] at hrun
          obtain ⟨h1, _⟩ := hrun
          have hfl : c.source.length / c.bs ≤ k * c.cap := by
            have := Nat.div_le_div_right (c := c.bs) hbreak
            rw [Nat.mul_div_cancel _ hbs] at this
            exact this
          rw [← h1]
          rw [show c.source.length / c.bs - k * c.cap = 0 from by omega]
          simp
        · rename_i hbreak
          split at hrun
          · simp at hrun
          · rename_i stm outm hpw
            have hstep := processWindow_full_positions c k st stm outm (hhk k) hbt hpw
            have hrest := ih (k + 1) stm (art ++ outm) st2 art2 hrun
            rw [hrest, hstep, List.append_assoc]
            congr 1
            have hlen : ((c.source.drop (k * c.cap * c.bs)).take (c.cap * c.bs)).length
                = min (c.cap * c.bs) (c.source.length - k * c.cap * c.bs) := by
              rw [List.length_take, List.length_drop]
            by_cases hfull : k * c.cap * c.bs + c.cap * c.bs ≤ c.source.length
            · have hE : ((c.source.drop (k * c.cap * c.bs)).take (c.cap * c.bs)).length / c.bs
                  = c.cap := by
                rw [hlen, Nat.min_def, if_pos (by omega), Nat.mul_div_cancel _ hbs]
              rw [hE]
              have hk1 : (k + 1) * c.cap = k * c.cap + c.cap := by ring
              have hge : c.cap ≤ c.source.length / c.bs - k * c.cap := by
                have : (k * c.cap + c.cap) * c.bs ≤ c.source.length := by
                  calc (k * c.cap + c.cap) * c.bs = k * c.cap * c.bs + c.cap * c.bs := by ring
                  _ ≤ c.source.length := hfull
                have h2 := Nat.div_le_div_right (c := c.bs) this
                rw [Nat.mul_div_cancel _ hbs] at h2
                omega
              rw [hk1]
              rw [List.range'_append_1 (k * c.cap) c.cap
                (c.source.length / c.bs - (k * c.cap + c.cap))]
              congr 1
              omega
            · have hlast : ((c.source.drop (k * c.cap * c.bs)).take (c.cap * c.bs)).length / c.bs
                  = c.source.length / c.bs - k * c.cap := by
                rw [hlen, Nat.min_def, if_neg (by omega)]
                have : c.source.length - k * c.cap * c.bs
                    = c.source.length - c.bs * (k * c.cap) := by ring_nf
                rw [this]
                rw [Nat.sub_mul_div c.source.length c.bs (k * c.cap)
                  (by rw [Nat.mul_comm]; omega)]
              rw [hlast]
              have hend : c.source.length / c.bs ≤ (k + 1) * c.cap := by
                have hlt2 : c.source.length < (k + 1) * c.cap * c.bs := by
                  have : (k + 1) * c.cap * c.bs = k * c.cap * c.bs + c.cap * c.bs := by ring
                  omega
                have := Nat.div_lt_iff_lt_mul hbs |>.mpr hlt2
                omega
              rw [show c.source.length / c.bs - (k + 1) * c.cap = 0 from by omega]
              simp
      · rename_i hge
        simp only [Except.ok.injEq, Prod.mk.injEq] at hrun
        obtain ⟨h1, _⟩ := hrun
        rw [← h1]
        rw [show c.source.length / c.bs - k * c.cap = 0 from by omega]
        simp

theorem resolveVolume_preserves (st : Store) (dp : String) (st1 : Store) (vol : VolumeRow)
    (hres : resolveVolume st dp = Except.ok (st1, vol)) :
    st1.positions = st.positions ∧ st1.backups = st.backups ∧
    st1.nextBackupId = st.nextBackupId ∧ st1.blocks = st.blocks := by
  simp only [resolveVolume] at hres
  split at hres
  · simp only [Except.ok.injEq, Prod.mk.injEq] at hres
    obtain ⟨h1, _⟩ := hres
    rw [← h1]
    exact ⟨rfl, rfl, rfl, rfl⟩
  · simp only [Store.InsertVolume] at hres
    split at hres
    · split at hres
      · split at hres
        · simp only [Except.ok.injEq, Prod.mk.injEq] at hres
          obtain ⟨h1, _⟩ := hres
          rw [← h1]
          exact ⟨rfl, rfl, rfl, rfl⟩
        · simp at hres
      · simp only [Except.ok.injEq, Prod.mk.injEq] at hres
        obtain ⟨h1, _⟩ := hres
        rw [← h1]
        exact ⟨rfl, rfl, rfl, rfl⟩
    · simp only [Except.ok.injEq, Prod.mk.injEq] at hres
      obtain ⟨h1, _⟩ := hres
      rw [← h1]
      exact ⟨rfl, rfl, rfl, rfl⟩

/-- General supporting theorem: for every successful run of `Backup.Run` that
creates a *full* backup (any source, block size, window size, schedule, and
any starting store with no stray rows under the fresh backup id), the
positions recorded for the new backup are exactly
`[0, ⌊sizeInBytes / blockSize⌋)`: every full block gets a row, the trailing
short block (when `blockSize` does not divide `sizeInBytes`) never does. -/
theorem backupRun_full_positions
    (h : List Nat → Nat) (sch : Sched) (bs cap : Nat) (devicePath : String)
    (source : List Nat) (sys : Sys) (sys2 : Sys) (r : BackupRow)
    (hhk : ∀ j l, (sch.hashOrd j l).Perm l)
    (hbs : 0 < bs)
    (hfresh : positionsOfBackup sys.store sys.store.nextBackupId = [])
    (hrun : backupRun h sch bs cap devicePath source sys = Except.ok (sys2, r))
    (hfull : r.backupType = backupTypeFull) :
    positionsOfBackup sys2.store r.id = List.range (source.length / bs) := by
  simp only [backupRun, Store.insertBackupRecord] at hrun
  split at hrun
  · simp at hrun
  · rename_i st1 vol hres
    split at hrun
    · simp at hrun
    · rename_i st3 artifact hrw
      simp only [Except.ok.injEq, Prod.mk.injEq] at hrun
      obtain ⟨h1, h2⟩ := hrun
      obtain ⟨hp1, _, hn1, _⟩ :=
        resolveVolume_preserves sys.store devicePath st1 vol hres
      have hbt0 : r.backupType
          = determineBackupType (st1.findLastFullBackupRecord vol.id) := by
        rw [← h2]
      have hbt : ¬ determineBackupType (st1.findLastFullBackupRecord vol.id)
          = backupTypeDifferential := by
        rw [← hbt0, hfull]
        intro hcon
        exact absurd hcon (by decide)
      have hTB : source.length / bs ≤ calculateTotalBlocks bs source.length := by
        unfold calculateTotalBlocks
        exact Nat.div_le_div_right (by omega)
      have hloop := runWindows_full_positions
        { hash := h, hashOrd := sch.hashOrd, insOrd := sch.insOrd, bs := bs, cap := cap
          recId := st1.nextBackupId
          btype := determineBackupType (st1.findLastFullBackupRecord vol.id)
          lastFullId := ((st1.findLastFullBackupRecord vol.id).map BackupRow.id).getD 0
          source := source }
        (calculateTotalBlocks bs source.length) hhk hbt hbs hTB
        (calculateTotalBlocks bs source.length + 1) 0 _ [] st3 artifact hrw
      have hrid : r.id = st1.nextBackupId := by rw [← h2]
      have hsys2 : sys2.store = st3 := by rw [← h1]
      rw [hsys2, hrid, hloop]
      have hmid : positionsOfBackup
          { st1 with
              backups := st1.backups ++
                [{ id := st1.nextBackupId, volumeId := vol.id
                   backupType := determineBackupType (st1.findLastFullBackupRecord vol.id)
                   totalBlocks := calculateTotalBlocks bs source.length
                   blockSize := bs, sizeInBytes := source.length }]
              nextBackupId := st1.nextBackupId + 1
              lastInsertRowId := st1.nextBackupId } st1.nextBackupId = [] := by
        unfold positionsOfBackup
        unfold positionsOfBackup at hfresh
        rw [show ({ st1 with
              backups := st1.backups ++
                [{ id := st1.nextBackupId, volumeId := vol.id
                   backupType := determineBackupType (st1.findLastFullBackupRecord vol.id)
                   totalBlocks := calculateTotalBlocks bs source.length
                   blockSize := bs, sizeInBytes := source.length }]
              nextBackupId := st1.nextBackupId + 1
              lastInsertRowId := st1.nextBackupId } : Store).positions = st1.positions from rfl]
        rw [hp1, hn1]
        exact hfresh
      rw [hmid]
      rw [Nat.zero_mul, Nat.sub_zero, List.nil_append]
      rw [List.range_eq_range']

theorem runExtends_refl (st : Store) (recId : Nat) : RunExtends st st recId :=
  ⟨⟨[], by simp, by simp⟩, ⟨[], by simp⟩⟩

theorem runExtends_trans {st0 st1 st2 : Store} {recId : Nat}
    (h1 : RunExtends st0 st1 recId) (h2 : RunExtends st1 st2 recId) :
    RunExtends st0 st2 recId := by
  obtain ⟨⟨e1, hp1, ha1⟩, ⟨b1, hb1⟩⟩ := h1
  obtain ⟨⟨e2, hp2, ha2⟩, ⟨b2, hb2⟩⟩ := h2
  refine ⟨⟨e1 ++ e2, ?_, ?_⟩, ⟨b1 ++ b2, ?_⟩⟩
  · rw [hp2, hp1, List.append_assoc]
  · intro r hr
    rcases List.mem_append.mp hr with hr | hr
    · exact ha1 r hr
    · exact ha2 r hr
  · rw [hb2, hb1, List.append_assoc]

theorem writeBlocks_runExtends
    (h : List Nat → Nat) (hk ik : List (Nat × Nat) → List (Nat × Nat))
    (bs iteration E cap : Nat) (blockBuf : List Nat) (st st2 : Store)
    (out : List Nat) (hm : List (Nat × Nat)) (recId : Nat)
    (hrun : writeBlocks h hk ik bs iteration E cap blockBuf st = Except.ok (st2, out, hm)) :
    RunExtends st st2 recId := by
  simp only [writeBlocks] at hrun
  split at hrun
  · simp at hrun
  · split at hrun
    · simp only [Except.ok.injEq, Prod.mk.injEq] at hrun
      obtain ⟨h1, _, _⟩ := hrun
      rw [← h1]
      exact runExtends_refl st recId
    · simp only [Except.ok.injEq, Prod.mk.injEq] at hrun
      obtain ⟨h1, _, _⟩ := hrun
      rw [← h1]
      exact ⟨⟨[], by simp, by simp⟩, ⟨_, rfl⟩⟩

theorem insertBlockPositionsTransaction_runExtends
    (recId : Nat) (btype : String) (lastFullId iteration bufEntries cap : Nat)
    (hashMap : List (Nat × Nat)) (st st2 : Store)
    (hrun : insertBlockPositionsTransaction recId btype lastFullId iteration bufEntries cap
      hashMap st = Except.ok st2) :
    RunExtends st st2 recId := by
  simp only [insertBlockPositionsTransaction] at hrun
  split at hrun
  · simp only [Except.ok.injEq] at hrun
    rw [← hrun]
    exact runExtends_refl st recId
  · split at hrun
    all_goals split at hrun
    all_goals simp only [Except.ok.injEq] at hrun
    all_goals rw [← hrun]
    all_goals first
    | exact runExtends_refl st recId
    | (refine ⟨⟨_, rfl, ?_⟩, ⟨[], by simp⟩⟩
       intro r hr
       rcases List.mem_map.mp hr with ⟨jr, hjr, hjr2⟩
       rw [← hjr2]
       have h2 := List.mem_map_of_mem Prod.snd hjr
       rw [List.enum_map_snd] at h2
       rcases List.mem_filterMap.mp h2 with ⟨i, hi0, hi⟩
       split at hi
       · simp at hi
       · simp only [Option.some.injEq] at hi
         rw [← hi])

theorem assocLookup_eq_of_nodupkeys (m : List (Nat × Nat)) (k v : Nat)
    (hnd : (m.map Prod.fst).Nodup) (hmem : (k, v) ∈ m) : assocLookup m k = some v := by
  induction m with
  | nil => simp at hmem
  | cons x xs ih =>
      have hnd2 : (x.1 :: xs.map Prod.fst).Nodup := by
        rw [← List.map_cons]
        exact hnd
      have hpair := List.nodup_cons.mp hnd2
      rcases List.mem_cons.mp hmem with rfl | hm
      · unfold assocLookup
        rw [List.find?_cons_of_pos _ (by simp)]
        rfl
      · have hx1 : ¬ x.1 = k := by
          intro hx1
          exact hpair.1 (hx1 ▸ List.mem_map_of_mem Prod.fst hm)
        unfold assocLookup
        rw [List.find?_cons_of_neg _ (by simp [hx1])]
        exact ih hpair.2 hm

theorem hashBufferedData_keys_nodup (h : List Nat → Nat) (bs it E cap : Nat) (buf : List Nat) :
    ((hashBufferedData h bs it E cap buf).map Prod.fst).Nodup := by
  unfold hashBufferedData
  rw [List.map_map]
  have : (Prod.fst ∘ fun i => (it * cap + i, h (blockSlice bs buf i)))
      = (fun i => it * cap + i) := rfl
  rw [this]
  exact (List.nodup_range E).map (fun a b hab => by omega)

theorem assocLookup_hashBufferedData (h : List Nat → Nat) (bs it E cap : Nat)
    (buf : List Nat) (i : Nat) (hi : i < E) :
    assocLookup (hashBufferedData h bs it E cap buf) (it * cap + i)
      = some (h (blockSlice bs buf i)) :=
  assocLookup_eq_of_nodupkeys _ _ _ (hashBufferedData_keys_nodup h bs it E cap buf)
    (mem_hashBufferedData.mpr ⟨i, hi, rfl⟩)

theorem blockSlice_window (bs cap k i : Nat) (source : List Nat) (hiE : bs * i + bs ≤ cap * bs) :
    blockSlice bs ((source.drop (k * cap * bs)).take (cap * bs)) i
      = blockSlice bs source (k * cap + i) := by
  unfold blockSlice
  rw [List.drop_take, List.take_take, List.drop_drop]
  congr 1
  · omega
  · congr 1
    ring

theorem filterMap_ite_none_some {α β : Type} (l : List α) (p : α → Bool) (f : α → β) :
    (l.filterMap (fun a => if p a then none else some (f a)))
      = (l.filter (fun a => !p a)).map f := by
  induction l with
  | nil => rfl
  | cons x xs ih =>
      rw [List.filterMap_cons, List.filter_cons]
      cases hp : p x with
      | true => simp [hp, ih]
      | false => simp [hp, ih]

theorem find?_filter_range_pos (l : List PositionRow) (lastFullId posStart posEnd pos : Nat)
    (hlo : posStart ≤ pos) (hhi : pos < posEnd) :
    (l.filter (fun p => decide (p.backupId = lastFullId ∧
        posStart ≤ p.position ∧ p.position < posEnd))).find?
        (fun p => decide (p.position = pos))
      = l.find? (fun p => decide (p.backupId = lastFullId ∧ p.position = pos)) := by
  induction l with
  | nil => rfl
  | cons r rs ih =>
      rw [List.filter_cons]
      by_cases hb : r.backupId = lastFullId
      · by_cases hp : r.position = pos
        · rw [if_pos (by simp [hb, hp]; omega)]
          rw [List.find?_cons_of_pos _ (by simp [hp])]
          rw [List.find?_cons_of_pos _ (by simp [hb, hp])]
        · by_cases hrange : posStart ≤ r.position ∧ r.position < posEnd
          · rw [if_pos (by simp [hb, hrange.1, hrange.2])]
            rw [List.find?_cons_of_neg _ (by simp [hp])]
            rw [List.find?_cons_of_neg _ (by simp [hp])]
            exact ih
          · rw [if_neg (by simp [hb]; omega)]
            rw [List.find?_cons_of_neg _ (by simp [hp])]
            exact ih
      · by_cases hrange : posStart ≤ r.position ∧ r.position < posEnd
        · rw [if_neg (by simp [hb])]
          rw [List.find?_cons_of_neg _ (by simp [hb])]
          exact ih
        · rw [if_neg (by simp [hb])]
          rw [List.find?_cons_of_neg _ (by simp [hb])]
          exact ih

theorem dupMap_lookup_eq
    (st0 stm : Store) (recId lastFullId posStart posEnd pos : Nat)
    (hext : RunExtends st0 stm recId)
    (hne : ¬ recId = lastFullId)
    (hres : ∀ p ∈ st0.positions, p.backupId = lastFullId →
      ∃ b, b ∈ st0.blocks ∧ b.id = p.blockId)
    (hlo : posStart ≤ pos) (hhi : pos < posEnd) :
    assocLookup
      ((stm.positions.filter (fun p => decide (p.backupId = lastFullId ∧
          posStart ≤ p.position ∧ p.position < posEnd))).filterMap
        (fun p => (stm.blocks.find? (fun b => decide (b.id = p.blockId))).map
          (fun b => (p.position, b.hash))))
      pos
    = recordedDigestAt st0 lastFullId pos := by
  obtain ⟨⟨extra, hpos, hall⟩, ⟨newb, hblocks⟩⟩ := hext
  have hfe : stm.positions.filter (fun p => decide (p.backupId = lastFullId ∧
      posStart ≤ p.position ∧ p.position < posEnd))
      = st0.positions.filter (fun p => decide (p.backupId = lastFullId ∧
        posStart ≤ p.position ∧ p.position < posEnd)) := by
    rw [hpos, List.filter_append]
    have hnil : extra.filter (fun p => decide (p.backupId = lastFullId ∧
        posStart ≤ p.position ∧ p.position < posEnd)) = [] := by
      refine List.filter_eq_nil_iff.mpr ?_
      intro r hr
      have hrid := hall r hr
      simp [hrid, hne]
    rw [hnil, List.append_nil]
  rw [hfe]
  have hstable : ∀ p ∈ st0.positions.filter (fun p => decide (p.backupId = lastFullId ∧
      posStart ≤ p.position ∧ p.position < posEnd)),
      (stm.blocks.find? (fun b => decide (b.id = p.blockId))).map
        (fun b => (p.position, b.hash))
      = some (p.position,
          (((st0.blocks.find? (fun b => decide (b.id = p.blockId))).map
            BlockRow.hash).getD 0)) := by
    intro p hp
    have hmem := List.mem_filter.mp hp
    have hcond := of_decide_eq_true hmem.2
    obtain ⟨b, hbmem, hbid⟩ := hres p hmem.1 hcond.1
    have hsome : (st0.blocks.find? (fun b => decide (b.id = p.blockId))).isSome :=
      List.find?_isSome.mpr ⟨b, hbmem, decide_eq_true hbid⟩
    cases hf : st0.blocks.find? (fun b => decide (b.id = p.blockId)) with
    | none => rw [hf] at hsome; simp at hsome
    | some b0 =>
        have hsame : stm.blocks.find? (fun b => decide (b.id = p.blockId)) = some b0 := by
          rw [hblocks, List.find?_append, hf]
          rfl
        rw [hsame]
        rfl
  rw [List.filterMap_eq_map_iff_forall_eq_some.mpr hstable]
  unfold assocLookup
  rw [List.find?_map]
  rw [show ((fun q : Nat × Nat => decide (q.1 = pos)) ∘ (fun p : PositionRow =>
      (p.position, (((st0.blocks.find? (fun b => decide (b.id = p.blockId))).map
        BlockRow.hash).getD 0))))
    = (fun p : PositionRow => decide (p.position = pos)) from rfl]
  rw [find?_filter_range_pos st0.positions lastFullId posStart posEnd pos hlo hhi]
  unfold recordedDigestAt
  cases hf2 : st0.positions.find?
      (fun p => decide (p.backupId = lastFullId ∧ p.position = pos)) with
  | none => rfl
  | some p =>
      have hpmem := List.mem_of_find?_eq_some hf2
      have hppred0 :=
        @List.find?_some PositionRow
          (fun q => decide (q.backupId = lastFullId ∧ q.position = pos)) p
          st0.positions hf2
      have hppred := of_decide_eq_true hppred0
      obtain ⟨b, hbmem, hbid⟩ := hres p hpmem hppred.1
      have hsome : (st0.blocks.find? (fun b => decide (b.id = p.blockId))).isSome :=
        List.find?_isSome.mpr ⟨b, hbmem, decide_eq_true hbid⟩
      cases hf : st0.blocks.find? (fun b => decide (b.id = p.blockId)) with
      | none => rw [hf] at hsome; simp at hsome
      | some b0 => simp [hf]

theorem filterMap_congr_mem {α β : Type} {l : List α} {f g : α → Option β}
    (h : ∀ a ∈ l, f a = g a) : l.filterMap f = l.filterMap g := by
  induction l with
  | nil => rfl
  | cons x xs ih =>
      rw [List.filterMap_cons, List.filterMap_cons, h x (List.mem_cons_self x xs),
        ih (fun a ha => h a (List.mem_cons_of_mem x ha))]

theorem map_add_filter_range (s : Nat) (q : Nat → Bool) (E : Nat) :
    ((List.range E).filter (fun i => q (s + i))).map (fun i => s + i)
      = (List.range' s E).filter q := by
  rw [List.range'_eq_map_range, List.filter_map]
  rfl

theorem prows_filter_positions (st : Store) (recId : Nat) (rows : List (Nat × Nat × Nat))
    (hall : ∀ r ∈ rows, r.1 = recId) :
    ((rows.enum.map (fun jr =>
      PositionRow.mk (st.nextPositionId + jr.1) jr.2.1 jr.2.2.1 jr.2.2.2)).filter
        (fun p => decide (p.backupId = recId))).map PositionRow.position
    = rows.map (fun r => r.2.2) := by
  have hkeep : (rows.enum.map (fun jr =>
      PositionRow.mk (st.nextPositionId + jr.1) jr.2.1 jr.2.2.1 jr.2.2.2)).filter
        (fun p => decide (p.backupId = recId))
      = rows.enum.map (fun jr =>
          PositionRow.mk (st.nextPositionId + jr.1) jr.2.1 jr.2.2.1 jr.2.2.2) := by
    refine List.filter_eq_self.mpr ?_
    intro p hp
    rcases List.mem_map.mp hp with ⟨jr, hjr, rfl⟩
    have : jr.2 ∈ rows := by
      have h2 : Prod.snd jr ∈ rows.enum.map Prod.snd := List.mem_map_of_mem Prod.snd hjr
      rw [List.enum_map_snd] at h2
      exact h2
    exact decide_eq_true (hall jr.2 this)
  rw [hkeep, List.map_map]
  have : ((rows.enum.map Prod.snd).map (fun r => r.2.2)) = rows.map (fun r => r.2.2) := by
    rw [List.enum_map_snd]
  rw [← this, List.map_map]
  rfl

theorem insertBlockPositionsTransaction_diff
    (h : List Nat → Nat) (bs recId lastFullId iteration E cap : Nat)
    (blockBuf : List Nat) (st0 stm st2 : Store)
    (hext : RunExtends st0 stm recId)
    (hne : ¬ recId = lastFullId)
    (hres : ∀ p ∈ st0.positions, p.backupId = lastFullId →
      ∃ b, b ∈ st0.blocks ∧ b.id = p.blockId)
    (hE : 0 < E) (hEcap : E ≤ cap)
    (hrun : insertBlockPositionsTransaction recId backupTypeDifferential lastFullId iteration
      E cap (hashBufferedData h bs iteration E cap blockBuf) stm = Except.ok st2) :
    positionsOfBackup st2 recId
      = positionsOfBackup stm recId
        ++ ((List.range E).filter (fun i =>
              !decide (recordedDigestAt st0 lastFullId (iteration * cap + i)
                = some (h (blockSlice bs blockBuf i))))).map
            (fun i => iteration * cap + i) := by
  have hHMne : (hashBufferedData h bs iteration E cap blockBuf).isEmpty = false := by
    have hlen : (hashBufferedData h bs iteration E cap blockBuf).length = E := by
      simp [hashBufferedData]
    cases hl : (hashBufferedData h bs iteration E cap blockBuf).isEmpty with
    | false => rfl
    | true =>
        exfalso
        rw [List.isEmpty_iff.mp hl] at hlen
        simp at hlen
        omega
  have hrows : ((List.range E).filterMap (fun i =>
      if True ∧
          assocLookup
            ((stm.positions.filter (fun p => decide (p.backupId = lastFullId ∧
                iteration * cap ≤ p.position ∧ p.position < iteration * cap + cap))).filterMap
              (fun p => (stm.blocks.find? (fun b => decide (b.id = p.blockId))).map
                (fun b => (p.position, b.hash)))) (iteration * cap + i)
          = some ((assocLookup (hashBufferedData h bs iteration E cap blockBuf)
              (iteration * cap + i)).getD 0) then none
      else some (recId,
        (stm.findBlockIdByHash ((assocLookup (hashBufferedData h bs iteration E cap blockBuf)
          (iteration * cap + i)).getD 0)).getD 0,
        iteration * cap + i)))
      = ((List.range E).filter (fun i =>
          !decide (recordedDigestAt st0 lastFullId (iteration * cap + i)
            = some (h (blockSlice bs blockBuf i))))).map
        (fun i => (recId,
          (stm.findBlockIdByHash (h (blockSlice bs blockBuf i))).getD 0,
          iteration * cap + i)) := by
    have hstep : ∀ i ∈ List.range E,
        (if True ∧
            assocLookup
              ((stm.positions.filter (fun p => decide (p.backupId = lastFullId ∧
                  iteration * cap ≤ p.position ∧ p.position < iteration * cap + cap))).filterMap
                (fun p => (stm.blocks.find? (fun b => decide (b.id = p.blockId))).map
                  (fun b => (p.position, b.hash)))) (iteration * cap + i)
            = some ((assocLookup (hashBufferedData h bs iteration E cap blockBuf)
                (iteration * cap + i)).getD 0) then none
         else some (recId,
           (stm.findBlockIdByHash ((assocLookup (hashBufferedData h bs iteration E cap blockBuf)
             (iteration * cap + i)).getD 0)).getD 0,
           iteration * cap + i))
        = (if decide (recordedDigestAt st0 lastFullId (iteration * cap + i)
              = some (h (blockSlice bs blockBuf i))) then none
           else some (recId,
             (stm.findBlockIdByHash (h (blockSlice bs blockBuf i))).getD 0,
             iteration * cap + i)) := by
      intro i hi
      have hiE := List.mem_range.mp hi
      have hhv := assocLookup_hashBufferedData h bs iteration E cap blockBuf i hiE
      have hdup := dupMap_lookup_eq st0 stm recId lastFullId (iteration * cap)
        (iteration * cap + cap) (iteration * cap + i) hext hne hres
        (Nat.le_add_right _ _) (by omega)
      rw [hhv, Option.getD_some, hdup]
      by_cases hc : recordedDigestAt st0 lastFullId (iteration * cap + i)
          = some (h (blockSlice bs blockBuf i))
      · rw [if_pos ⟨trivial, hc⟩, if_pos (by simp [hc])]
      · rw [if_neg (fun hand => hc hand.2), if_neg (by simp [hc])]
    have h1 := filterMap_congr_mem hstep
    have h2 := filterMap_ite_none_some (List.range E)
      (fun i => decide (recordedDigestAt st0 lastFullId (iteration * cap + i)
        = some (h (blockSlice bs blockBuf i))))
      (fun i => ((recId,
        (stm.findBlockIdByHash (h (blockSlice bs blockBuf i))).getD 0,
        iteration * cap + i) : Nat × Nat × Nat))
    exact h1.trans h2
  unfold insertBlockPositionsTransaction at hrun
  split at hrun
  · rename_i hemp
    rw [hHMne] at hemp
    simp at hemp
  · split at hrun
    · simp only [] at hrun
      split at hrun
      · rename_i hre2
        simp only [Except.ok.injEq] at hrun
        rw [← hrun]
        rw [hrows] at hre2
        have hfe : (List.range E).filter (fun i =>
            !decide (recordedDigestAt st0 lastFullId (iteration * cap + i)
              = some (h (blockSlice bs blockBuf i)))) = [] :=
          List.map_eq_nil_iff.mp (List.isEmpty_iff.mp hre2)
        rw [hfe]
        simp
      · rename_i hre2
        simp only [Except.ok.injEq] at hrun
        rw [← hrun]
        unfold positionsOfBackup
        rw [List.filter_append, List.map_append]
        congr 1
        rw [hrows]
        rw [prows_filter_positions stm recId _
          (by intro r hr; rcases List.mem_map.mp hr with ⟨i, _, rfl⟩; rfl)]
        rw [List.map_map]
        rfl
    · rename_i hre
      exact absurd rfl hre

theorem processWindow_runExtends (c : BkCtx) (k : Nat) (st st2 : Store) (outB : List Nat)
    (hrun : processWindow c k st = Except.ok (st2, outB)) :
    RunExtends st st2 c.recId := by
  simp only [processWindow] at hrun
  split at hrun
  · simp at hrun
  · rename_i stm outm hmm hwb
    split at hrun
    · simp at hrun
    · rename_i stf hbp
      simp only [Except.ok.injEq, Prod.mk.injEq] at hrun
      obtain ⟨h1, _⟩ := hrun
      rw [← h1]
      exact runExtends_trans
        (writeBlocks_runExtends c.hash (c.hashOrd k) (c.insOrd k) c.bs k _ c.cap _
          st stm outm hmm c.recId hwb)
        (insertBlockPositionsTransaction_runExtends c.recId c.btype c.lastFullId k _ c.cap
          _ stm stf hbp)

theorem processWindow_diff_positions (c : BkCtx) (k : Nat) (st0 st st2 : Store) (outB : List Nat)
    (hhk : ∀ l, (c.hashOrd k l).Perm l)
    (hbt : c.btype = backupTypeDifferential)
    (hbs : 0 < c.bs)
    (hext : RunExtends st0 st c.recId)
    (hne : ¬ c.recId = c.lastFullId)
    (hres : ∀ p ∈ st0.positions, p.backupId = c.lastFullId →
      ∃ b, b ∈ st0.blocks ∧ b.id = p.blockId)
    (hrun : processWindow c k st = Except.ok (st2, outB)) :
    positionsOfBackup st2 c.recId
      = positionsOfBackup st c.recId
        ++ (List.range' (k * c.cap)
            (((c.source.drop (k * c.cap * c.bs)).take (c.cap * c.bs)).length / c.bs)).filter
          (fun pos => decide (¬ recordedDigestAt st0 c.lastFullId pos
            = some (c.hash (blockSlice c.bs c.source pos)))) := by
  simp only [processWindow] at hrun
  split at hrun
  · simp at hrun
  · rename_i stm outm hmm hwb
    split at hrun
    · simp at hrun
    · rename_i stf hbp
      simp only [Except.ok.injEq, Prod.mk.injEq] at hrun
      obtain ⟨h1, h2⟩ := hrun
      obtain ⟨hpos, hhm, hE⟩ := writeBlocks_ok_facts c.hash (c.hashOrd k) (c.insOrd k)
        c.bs k _ c.cap _ st stm outm hmm hhk hwb
      rw [hhm, hbt] at hbp
      have hEcap : ((c.source.drop (k * c.cap * c.bs)).take (c.cap * c.bs)).length / c.bs
          ≤ c.cap := by
        have hlen : ((c.source.drop (k * c.cap * c.bs)).take (c.cap * c.bs)).length
            ≤ c.cap * c.bs := by
          rw [List.length_take]
          exact min_le_left _ _
        calc ((c.source.drop (k * c.cap * c.bs)).take (c.cap * c.bs)).length / c.bs
            ≤ (c.cap * c.bs) / c.bs := Nat.div_le_div_right hlen
        _ = c.cap := Nat.mul_div_cancel _ hbs
      have hextm : RunExtends st0 stm c.recId :=
        runExtends_trans hext (writeBlocks_runExtends c.hash (c.hashOrd k) (c.insOrd k)
          c.bs k _ c.cap _ st stm outm hmm c.recId hwb)
      have hd := insertBlockPositionsTransaction_diff c.hash c.bs c.recId c.lastFullId
        k _ c.cap _ st0 stm stf hextm hne hres hE hEcap hbp
      have hstep2 : ∀ i ∈ List.range
          (((c.source.drop (k * c.cap * c.bs)).take (c.cap * c.bs)).length / c.bs),
          (!decide (recordedDigestAt st0 c.lastFullId (k * c.cap + i)
            = some (c.hash (blockSlice c.bs
              ((c.source.drop (k * c.cap * c.bs)).take (c.cap * c.bs)) i))))
          = decide (¬ recordedDigestAt st0 c.lastFullId (k * c.cap + i)
            = some (c.hash (blockSlice c.bs c.source (k * c.cap + i)))) := by
        intro i hi
        have hiE := List.mem_range.mp hi
        have harith : c.bs * i + c.bs ≤ c.cap * c.bs := by
          have hlen : ((c.source.drop (k * c.cap * c.bs)).take (c.cap * c.bs)).length
              ≤ c.cap * c.bs := by
            rw [List.length_take]
            exact min_le_left _ _
          have hdm : (((c.source.drop (k * c.cap * c.bs)).take (c.cap * c.bs)).length / c.bs)
                * c.bs
              ≤ ((c.source.drop (k * c.cap * c.bs)).take (c.cap * c.bs)).length :=
            Nat.div_mul_le_self _ _
          have hmul : (i + 1) * c.bs
              ≤ (((c.source.drop (k * c.cap * c.bs)).take (c.cap * c.bs)).length / c.bs)
                  * c.bs :=
            Nat.mul_le_mul_right _ (by omega)
          calc c.bs * i + c.bs = (i + 1) * c.bs := by ring
          _ ≤ _ := hmul
          _ ≤ _ := hdm
          _ ≤ _ := hlen
        rw [blockSlice_window c.bs c.cap k i c.source harith, decide_not]
      have hfc := List.filter_congr hstep2
      have hmr := map_add_filter_range (k * c.cap)
        (fun pos => decide (¬ recordedDigestAt st0 c.lastFullId pos
          = some (c.hash (blockSlice c.bs c.source pos))))
        (((c.source.drop (k * c.cap * c.bs)).take (c.cap * c.bs)).length / c.bs)
      rw [← h1, hd, hfc, hmr]
      unfold positionsOfBackup
      rw [hpos]

theorem runWindows_diff_positions (c : BkCtx) (totalBlocks : Nat) (st0 : Store)
    (hhk : ∀ j l, (c.hashOrd j l).Perm l)
    (hbt : c.btype = backupTypeDifferential)
    (hbs : 0 < c.bs)
    (hne : ¬ c.recId = c.lastFullId)
    (hres : ∀ p ∈ st0.positions, p.backupId = c.lastFullId →
      ∃ b, b ∈ st0.blocks ∧ b.id = p.blockId)
    (hTB : c.source.length / c.bs ≤ totalBlocks) :
    ∀ fuel k st art st2 art2,
      RunExtends st0 st c.recId →
      runWindows c totalBlocks fuel k st art = Except.ok (st2, art2) →
      positionsOfBackup st2 c.recId
        = positionsOfBackup st c.recId
          ++ (List.range' (k * c.cap) (c.source.length / c.bs - k * c.cap)).filter
            (fun pos => decide (¬ recordedDigestAt st0 c.lastFullId pos
              = some (c.hash (blockSlice c.bs c.source pos)))) := by
  intro fuel
  induction fuel with
  | zero => intro k st art st2 art2 hext hrun; simp [runWindows] at hrun
  | succ f ih =>
      intro k st art st2 art2 hext hrun
      unfold runWindows at hrun
      split at hrun
      · rename_i hlt
        split at hrun
        · rename_i hbreak
          simp only [Except.ok.injEq, Prod.mk.injEq] at hrun
          obtain ⟨h1, _⟩ := hrun
          have hfl : c.source.length / c.bs ≤ k * c.cap := by
            have := Nat.div_le_div_right (c := c.bs) hbreak
            rw [Nat.mul_div_cancel _ hbs] at this
            exact this
          rw [← h1]
          rw [show c.source.length / c.bs - k * c.cap = 0 from by omega]
          simp
        · rename_i hbreak
          split at hrun
          · simp at hrun
          · rename_i stm outm hpw
            have hext2 := processWindow_runExtends c k st stm outm hpw
            have hstep := processWindow_diff_positions c k st0 st stm outm (hhk k)
              hbt hbs hext hne hres hpw
            have hrest := ih (k + 1) stm (art ++ outm) st2 art2
              (runExtends_trans hext hext2) hrun
            rw [hrest, hstep, List.append_assoc]
            congr 1
            rw [← List.filter_append]
            congr 1
            have hlen : ((c.source.drop (k * c.cap * c.bs)).take (c.cap * c.bs)).length
                = min (c.cap * c.bs) (c.source.length - k * c.cap * c.bs) := by
              rw [List.length_take, List.length_drop]
            by_cases hfull : k * c.cap * c.bs + c.cap * c.bs ≤ c.source.length
            · have hEw : ((c.source.drop (k * c.cap * c.bs)).take (c.cap * c.bs)).length / c.bs
                  = c.cap := by
                rw [hlen, Nat.min_def, if_pos (by omega), Nat.mul_div_cancel _ hbs]
              rw [hEw]
              have hk1 : (k + 1) * c.cap = k * c.cap + c.cap := by ring
              have hge : c.cap ≤ c.source.length / c.bs - k * c.cap := by
                have hmul : (k * c.cap + c.cap) * c.bs ≤ c.source.length := by
                  calc (k * c.cap + c.cap) * c.bs
                      = k * c.cap * c.bs + c.cap * c.bs := by ring
                  _ ≤ c.source.length := hfull
                have h2 := Nat.div_le_div_right (c := c.bs) hmul
                rw [Nat.mul_div_cancel _ hbs] at h2
                omega
              rw [hk1]
              rw [List.range'_append_1 (k * c.cap) c.cap
                (c.source.length / c.bs - (k * c.cap + c.cap))]
              congr 1
              omega
            · have hlast : ((c.source.drop (k * c.cap * c.bs)).take (c.cap * c.bs)).length / c.bs
                  = c.source.length / c.bs - k * c.cap := by
                rw [hlen, Nat.min_def, if_neg (by omega)]
                have hsub : c.source.length - k * c.cap * c.bs
                    = c.source.length - c.bs * (k * c.cap) := by ring_nf
                rw [hsub]
                rw [Nat.sub_mul_div c.source.length c.bs (k * c.cap)
                  (by rw [Nat.mul_comm]; omega)]
              rw [hlast]
              have hend : c.source.length / c.bs ≤ (k + 1) * c.cap := by
                have hlt2 : c.source.length < (k + 1) * c.cap * c.bs := by
                  have hx : (k + 1) * c.cap * c.bs = k * c.cap * c.bs + c.cap * c.bs := by ring
                  omega
                have := Nat.div_lt_iff_lt_mul hbs |>.mpr hlt2
                omega
              rw [show c.source.length / c.bs - (k + 1) * c.cap = 0 from by omega]
              simp
      · rename_i hge
        simp only [Except.ok.injEq, Prod.mk.injEq] at hrun
        obtain ⟨h1, _⟩ := hrun
        rw [← h1]
        rw [show c.source.length / c.bs - k * c.cap = 0 from by omega]
        simp

/-- General supporting theorem: for every successful run of `Backup.Run` that
creates a *differential* backup against a reference full backup `F` (any
source, block size, window size and schedule; the volume already known, a
store with no stray rows under the fresh backup id, whose `F`-rows resolve to
block rows), the positions recorded for the new backup are exactly the
spec's claimed difference set restricted to `[0, ⌊sizeInBytes/blockSize⌋)`:
every full-block position whose digest disagrees with what the store records
for `F` at that position, and no others — the trailing short block (when
`blockSize` does not divide `sizeInBytes`) never gets a row. -/
theorem backupRun_differential_positions
    (h : List Nat → Nat) (sch : Sched) (bs cap : Nat) (devicePath : String)
    (source : List Nat) (sys : Sys) (sys2 : Sys) (r : BackupRow)
    (vol : VolumeRow) (F : BackupRow)
    (hhk : ∀ j l, (sch.hashOrd j l).Perm l)
    (hbs : 0 < bs)
    (hfind : sys.store.FindVolume (pathBasename devicePath) = some vol)
    (hlastF : sys.store.findLastFullBackupRecord vol.id = some F)
    (hne : ¬ sys.store.nextBackupId = F.id)
    (hres : ∀ p ∈ sys.store.positions, p.backupId = F.id →
      ∃ b, b ∈ sys.store.blocks ∧ b.id = p.blockId)
    (hfresh : positionsOfBackup sys.store sys.store.nextBackupId = [])
    (hrun : backupRun h sch bs cap devicePath source sys = Except.ok (sys2, r)) :
    positionsOfBackup sys2.store r.id
      = claimedDiffPositions h bs source sys.store F.id (source.length / bs) := by
  have hrv : resolveVolume sys.store devicePath = Except.ok (sys.store, vol) := by
    unfold resolveVolume
    simp only [hfind]
  simp only [backupRun, Store.insertBackupRecord] at hrun
  split at hrun
  · rename_i e hres1
    rw [hrv] at hres1
    simp at hres1
  · rename_i st1 vol1 hres1
    rw [hrv] at hres1
    simp only [Except.ok.injEq, Prod.mk.injEq] at hres1
    obtain ⟨hst1, hvol1⟩ := hres1
    subst hst1
    subst hvol1
    rw [hlastF] at hrun
    simp only [determineBackupType, Option.map_some', Option.getD_some] at hrun
    split at hrun
    · simp at hrun
    · rename_i st3 artifact hrw
      simp only [Except.ok.injEq, Prod.mk.injEq] at hrun
      obtain ⟨h1, h2⟩ := hrun
      have hTB : source.length / bs ≤ calculateTotalBlocks bs source.length := by
        unfold calculateTotalBlocks
        exact Nat.div_le_div_right (by omega)
      have hext0 : RunExtends sys.store
          { sys.store with
              backups := sys.store.backups ++
                [{ id := sys.store.nextBackupId, volumeId := vol.id
                   backupType := backupTypeDifferential
                   totalBlocks := calculateTotalBlocks bs source.length
                   blockSize := bs, sizeInBytes := source.length }]
              nextBackupId := sys.store.nextBackupId + 1
              lastInsertRowId := sys.store.nextBackupId } sys.store.nextBackupId :=
        ⟨⟨[], by simp, by simp⟩, ⟨[], by simp⟩⟩
      have hloop := runWindows_diff_positions
        { hash := h, hashOrd := sch.hashOrd, insOrd := sch.insOrd, bs := bs, cap := cap
          recId := sys.store.nextBackupId
          btype := backupTypeDifferential
          lastFullId := F.id
          source := source } (calculateTotalBlocks bs source.length) sys.store
        hhk rfl hbs hne hres hTB
        (calculateTotalBlocks bs source.length + 1) 0 _ [] st3 artifact hext0 hrw
      have hrid : r.id = sys.store.nextBackupId := by rw [← h2]
      have hsys2 : sys2.store = st3 := by rw [← h1]
      rw [hsys2, hrid, hloop]
      have hmid : positionsOfBackup
          { sys.store with
              backups := sys.store.backups ++
                [{ id := sys.store.nextBackupId, volumeId := vol.id
                   backupType := backupTypeDifferential
                   totalBlocks := calculateTotalBlocks bs source.length
                   blockSize := bs, sizeInBytes := source.length }]
              nextBackupId := sys.store.nextBackupId + 1
              lastInsertRowId := sys.store.nextBackupId } sys.store.nextBackupId = [] := by
        unfold positionsOfBackup
        unfold positionsOfBackup at hfresh
        exact hfresh
      rw [hmid]
      rw [Nat.zero_mul, Nat.sub_zero, List.nil_append]
      unfold claimedDiffPositions
      rw [List.range_eq_range']

end BlockDiff
